import Mathlib

/-!
# FP STRUKDAT: particle collisions, brute force against a quadtree

A shallow embedding of `src/Folder Baru/FP STRUKDAT.cpp`.

* `float` is modelled by an arbitrary linearly ordered field `F` (exact arithmetic); the
  definitions are computable and can be run at `F = ℚ`.  `std::sqrt` is a parameter
  `sqrt : F → F`; theorems that depend on its value assume `IsSqrt sqrt`.
* A `Particle*` is an index into the particle vector, which plays the part of the heap:
  `deref mem k` is `*k`.
* `sf::Color` and the drawing members are left out: no modelled function reads them.
-/

namespace FPStrukdat

/-! ## Data model -/

/-- The two `float` components of `sf::Vector2f`. -/
structure Vector2f (F : Type) where
  x : F
  y : F
deriving DecidableEq, Repr

/-- The `struct Rectangle` of the source. -/
structure Rectangle (F : Type) where
  x : F
  y : F
  width : F
  height : F
deriving DecidableEq, Repr

/-- The `struct Particle` of the source, without its colour. -/
structure Particle (F : Type) where
  position : Vector2f F
  velocity : Vector2f F
  radius : F
  id : Int
deriving DecidableEq, Repr

section Defs

variable {F : Type} [LinearOrderedField F]

/-- The default constructor `Particle()`: at the origin, at rest, radius 5, id 0. -/
instance : Inhabited (Particle F) := ⟨⟨⟨0, 0⟩, ⟨0, 0⟩, 5, 0⟩⟩

/-- Dereference of a particle pointer: the element of the vector it points to. -/
def deref (mem : List (Particle F)) (k : Nat) : Particle F := mem.getD k default

/-- The member `Rectangle::contains`. -/
def Rectangle.contains (r : Rectangle F) (px py : F) : Bool :=
  decide (px ≥ r.x) && decide (px < r.x + r.width) && decide (py ≥ r.y) &&
    decide (py < r.y + r.height)

/-- The member `Rectangle::intersects`. -/
def Rectangle.intersects (r other : Rectangle F) : Bool :=
  !(decide (other.x > r.x + r.width) || decide (other.x + other.width < r.x) ||
    decide (other.y > r.y + r.height) || decide (other.y + other.height < r.y))

/-- The member `Particle::update`. -/
def Particle.update (p : Particle F) (width height : F) : Particle F :=
  let px := p.position.x + p.velocity.x
  let py := p.position.y + p.velocity.y
  let xs : F × F :=
    if px - p.radius < 0 then (p.radius, -p.velocity.x)
    else if px + p.radius > width then (width - p.radius, -p.velocity.x)
    else (px, p.velocity.x)
  let ys : F × F :=
    if py - p.radius < 0 then (p.radius, -p.velocity.y)
    else if py + p.radius > height then (height - p.radius, -p.velocity.y)
    else (py, p.velocity.y)
  { p with position := ⟨xs.1, ys.1⟩, velocity := ⟨xs.2, ys.2⟩ }

/-! ## The quadtree -/

/-- The constant `Quadtree::MAX_PARTICLES`. -/
def MAX_PARTICLES : Nat := 4

/-- The constant `Quadtree::MAX_LEVELS`. -/
def MAX_LEVELS : Int := 8

/-- A node of the `class Quadtree`.  `leaf` is a node with `nodes[0] == nullptr`; `branch` is a
node after `split`, which sets all four children at once. -/
inductive Quadtree (F : Type) where
  | leaf (level : Int) (particles : List Nat) (bounds : Rectangle F) : Quadtree F
  | branch (level : Int) (particles : List Nat) (bounds : Rectangle F)
      (n0 n1 n2 n3 : Quadtree F) : Quadtree F
deriving DecidableEq, Repr

/-- The constructor `Quadtree(lv, b)`: no particles, no children. -/
def Quadtree.new (lv : Int) (b : Rectangle F) : Quadtree F := .leaf lv [] b

/-- The field `level`. -/
def Quadtree.level : Quadtree F → Int
  | .leaf lv _ _ => lv
  | .branch lv _ _ _ _ _ _ => lv

/-- The field `particles`, the node's local list. -/
def Quadtree.particles : Quadtree F → List Nat
  | .leaf _ ps _ => ps
  | .branch _ ps _ _ _ _ _ => ps

/-- The field `bounds`. -/
def Quadtree.bounds : Quadtree F → Rectangle F
  | .leaf _ _ b => b
  | .branch _ _ b _ _ _ _ => b

/-- The member `Quadtree::getIndex`; it reads only the node's `bounds`. -/
def getIndex (bounds : Rectangle F) (p : Particle F) : Int :=
  let verticalMidpoint := bounds.x + bounds.width / 2
  let horizontalMidpoint := bounds.y + bounds.height / 2
  let topQuadrant : Bool := decide (p.position.y - p.radius < horizontalMidpoint)
  let bottomQuadrant : Bool := decide (p.position.y + p.radius > horizontalMidpoint)
  if p.position.x - p.radius < verticalMidpoint ∧ p.position.x + p.radius < verticalMidpoint then
    if topQuadrant && !bottomQuadrant then 1
    else if bottomQuadrant && !topQuadrant then 2
    else -1
  else if p.position.x - p.radius > verticalMidpoint then
    if topQuadrant && !bottomQuadrant then 0
    else if bottomQuadrant && !topQuadrant then 3
    else -1
  else -1

/-- The bounds that `Quadtree::split` gives to `nodes[i]`. -/
def splitBounds (b : Rectangle F) (i : Nat) : Rectangle F :=
  let subWidth := b.width / 2
  let subHeight := b.height / 2
  match i with
  | 0 => ⟨b.x + subWidth, b.y, subWidth, subHeight⟩
  | 1 => ⟨b.x, b.y, subWidth, subHeight⟩
  | 2 => ⟨b.x, b.y + subHeight, subWidth, subHeight⟩
  | _ => ⟨b.x + subWidth, b.y + subHeight, subWidth, subHeight⟩

/-- The four children `nodes[0..3]` of a node that has split. -/
structure Nodes (F : Type) where
  n0 : Quadtree F
  n1 : Quadtree F
  n2 : Quadtree F
  n3 : Quadtree F

/-- The member `Quadtree::split`: four fresh children one level down, in the order
`nodes[0]` = right/top, `nodes[1]` = left/top, `nodes[2]` = left/bottom, `nodes[3]` = right/bottom. -/
def Quadtree.split (level : Int) (bounds : Rectangle F) : Nodes F :=
  ⟨Quadtree.new (level + 1) (splitBounds bounds 0), Quadtree.new (level + 1) (splitBounds bounds 1),
   Quadtree.new (level + 1) (splitBounds bounds 2), Quadtree.new (level + 1) (splitBounds bounds 3)⟩

/-- The call `nodes[index]->insert(p)`, where `ins` is the recursive call; `index` is one of
0, 1, 2, 3 at every call site. -/
def insertChild (ins : Quadtree F → Nat → Option (Quadtree F)) (index : Int) (k : Nat)
    (ns : Nodes F) : Option (Nodes F) :=
  if index = 0 then (ins ns.n0 k).map fun n => { ns with n0 := n }
  else if index = 1 then (ins ns.n1 k).map fun n => { ns with n1 := n }
  else if index = 2 then (ins ns.n2 k).map fun n => { ns with n2 := n }
  else (ins ns.n3 k).map fun n => { ns with n3 := n }

/-- The `while (it != particles.end())` loop of `Quadtree::insert`: the first list is what the
iterator has not visited yet, `kept` is what it has stepped over (in order). -/
def redistribute (ins : Quadtree F → Nat → Option (Quadtree F)) (mem : List (Particle F))
    (bounds : Rectangle F) : List Nat → List Nat → Nodes F → Option (List Nat × Nodes F)
  | [], kept, ns => some (kept, ns)
  | k :: rest, kept, ns =>
    let index := getIndex bounds (deref mem k)
    if index ≠ -1 then
      (insertChild ins index k ns).bind fun ns1 => redistribute ins mem bounds rest kept ns1
    else redistribute ins mem bounds rest (kept ++ [k]) ns

/-- The part of `Quadtree::insert` after `particles.push_back(p)`; `ps` is the local list with
`p` already appended, `children` is `none` when `nodes[0] == nullptr`. -/
def afterPush (ins : Quadtree F → Nat → Option (Quadtree F)) (mem : List (Particle F))
    (level : Int) (ps : List Nat) (bounds : Rectangle F) (children : Option (Nodes F)) :
    Option (Quadtree F) :=
  if ps.length > MAX_PARTICLES ∧ level < MAX_LEVELS then
    let ns := match children with
      | none => Quadtree.split level bounds
      | some ns => ns
    (redistribute ins mem bounds ps [] ns).map fun r =>
      Quadtree.branch level r.1 bounds r.2.n0 r.2.n1 r.2.n2 r.2.n3
  else
    match children with
    | none => some (Quadtree.leaf level ps bounds)
    | some ns => some (Quadtree.branch level ps bounds ns.n0 ns.n1 ns.n2 ns.n3)

/-- The member `Quadtree::insert` with a bound on the recursion depth: `none` when the bound is
reached.  `Quadtree.insert` below runs it with a bound that is never reached. -/
def insertFuel (mem : List (Particle F)) : Nat → Quadtree F → Nat → Option (Quadtree F)
  | 0 => fun _ _ => none
  | fuel + 1 => fun t k =>
    match t with
    | .leaf lv ps b => afterPush (insertFuel mem fuel) mem lv (ps ++ [k]) b none
    | .branch lv ps b n0 n1 n2 n3 =>
      let index := getIndex b (deref mem k)
      if index ≠ -1 then
        (insertChild (insertFuel mem fuel) index k ⟨n0, n1, n2, n3⟩).map fun ns =>
          Quadtree.branch lv ps b ns.n0 ns.n1 ns.n2 ns.n3
      else afterPush (insertFuel mem fuel) mem lv (ps ++ [k]) b (some ⟨n0, n1, n2, n3⟩)

/-- A recursion depth that `Quadtree::insert` cannot exceed on this tree: a node without children
can grow `MAX_LEVELS - level` levels, a node with children is one deeper than its children. -/
def Quadtree.fuel : Quadtree F → Nat
  | .leaf lv _ _ => (MAX_LEVELS - lv).toNat + 1
  | .branch _ _ _ n0 n1 n2 n3 => max (max n0.fuel n1.fuel) (max n2.fuel n3.fuel) + 1

/-- The member `Quadtree::insert(p)`, `p` being the pointer `k`. -/
def Quadtree.insert (mem : List (Particle F)) (t : Quadtree F) (k : Nat) : Quadtree F :=
  (insertFuel mem t.fuel t k).getD t

/-- The member `Quadtree::retrieve(returnObjects, p)`; the result is `returnObjects` afterwards.
The pointer `p` is only read, so its pointee is passed. -/
def Quadtree.retrieve : Quadtree F → List Nat → Particle F → List Nat
  | .leaf _ ps _, returnObjects, _ => returnObjects ++ ps
  | .branch _ ps b n0 n1 n2 n3, returnObjects, p =>
    let index := getIndex b p
    let r1 :=
      if index ≠ -1 then
        if index = 0 then n0.retrieve returnObjects p
        else if index = 1 then n1.retrieve returnObjects p
        else if index = 2 then n2.retrieve returnObjects p
        else n3.retrieve returnObjects p
      else returnObjects
    let r2 := r1 ++ ps
    if index = -1 then
      n3.retrieve (n2.retrieve (n1.retrieve (n0.retrieve r2 p) p) p) p
    else r2

/-- The tree that `main` builds each frame: a root at level 0 over `bounds`, then one `insert` per
pointer of `ks`, in order. -/
def build (mem : List (Particle F)) (bounds : Rectangle F) (ks : List Nat) : Quadtree F :=
  ks.foldl (Quadtree.insert mem) (Quadtree.new 0 bounds)

/-- The window of `main`: `Rectangle(0, 0, WINDOW_WIDTH, WINDOW_HEIGHT)`. -/
def window : Rectangle F := ⟨0, 0, 1200, 800⟩

/-! ## Collision detection -/

/-- The function `distance`. -/
def distance (sqrt : F → F) (a b : Particle F) : F :=
  let dx := a.position.x - b.position.x
  let dy := a.position.y - b.position.y
  sqrt (dx * dx + dy * dy)

/-- The state of a collision pass: the counter `collisions` and the particle vector. -/
abbrev PassState (F : Type) := Int × List (Particle F)

/-- The guard `dist < minDist && dist > 0` of the narrow phase for the pointers `i` and `c`. -/
def collides (sqrt : F → F) (mem : List (Particle F)) (i c : Nat) : Bool :=
  let dist := distance sqrt (deref mem i) (deref mem c)
  let minDist := (deref mem i).radius + (deref mem c).radius
  decide (dist < minDist) && decide (dist > 0)

/-- The body of the `if (dist < minDist && dist > 0)` block without the counter: the writes
through `particles[i]` and through the second pointer `c`, in the order of the source; `dist`
and `minDist` are the locals computed before the `if`. -/
def resolve (mem : List (Particle F)) (i c : Nat) (dist minDist : F) : List (Particle F) :=
  let dx := ((deref mem i).position.x - (deref mem c).position.x) / dist
  let dy := ((deref mem i).position.y - (deref mem c).position.y) / dist
  let overlap := minDist - dist
  let m1 := mem.set i { deref mem i with
    position := ⟨(deref mem i).position.x + dx * (overlap / 2),
                 (deref mem i).position.y + dy * (overlap / 2)⟩ }
  let m2 := m1.set c { deref m1 c with
    position := ⟨(deref m1 c).position.x - dx * (overlap / 2),
                 (deref m1 c).position.y - dy * (overlap / 2)⟩ }
  let tempV := (deref m2 i).velocity
  let m3 := m2.set i { deref m2 i with velocity := (deref m2 c).velocity }
  m3.set c { deref m3 c with velocity := tempV }

/-- The narrow phase on the pointers `i` and `c`: lines 213-236 of the source, which lines
253-276 repeat for a candidate pointer. -/
def pairStep (sqrt : F → F) (i c : Nat) (st : PassState F) : PassState F :=
  let dist := distance sqrt (deref st.2 i) (deref st.2 c)
  let minDist := (deref st.2 i).radius + (deref st.2 c).radius
  if dist < minDist ∧ dist > 0 then (st.1 + 1, resolve st.2 i c dist minDist) else st

/-- The function `checkCollisionsBruteForce`: the returned count and the vector afterwards. -/
def checkCollisionsBruteForce (sqrt : F → F) (particles : List (Particle F)) : PassState F :=
  (List.range particles.length).foldl
    (fun st i =>
      (List.range' (i + 1) (particles.length - (i + 1))).foldl
        (fun st j => pairStep sqrt i j st) st)
    (0, particles)

/-- The body of the loop of `checkCollisionsQuadtree` over the candidates: the filter
`if (particles[i].id >= candidates[j]->id) continue;`, then the narrow phase. -/
def candidateStep (sqrt : F → F) (i : Nat) (st : PassState F) (c : Nat) : PassState F :=
  if (deref st.2 i).id ≥ (deref st.2 c).id then st else pairStep sqrt i c st

/-- The function `checkCollisionsQuadtree`: the returned count and the vector afterwards.  The
pointers in `quadtree` point into `particles`. -/
def checkCollisionsQuadtree (sqrt : F → F) (particles : List (Particle F))
    (quadtree : Quadtree F) : PassState F :=
  (List.range particles.length).foldl
    (fun st i =>
      let candidates := quadtree.retrieve [] (deref st.2 i)
      candidates.foldl (candidateStep sqrt i) st)
    (0, particles)

/-- The step `candidateStep` with a log of the (query, candidate) pairs that pass the filter on
the ids, which are the pairs the narrow phase is applied to. -/
def candidateStepLog (sqrt : F → F) (i : Nat) (st : PassState F × List (Nat × Nat)) (c : Nat) :
    PassState F × List (Nat × Nat) :=
  if (deref st.1.2 i).id ≥ (deref st.1.2 c).id then st
  else (pairStep sqrt i c st.1, st.2 ++ [(i, c)])

/-- The function `checkCollisionsQuadtree` with the log of `candidateStepLog`. -/
def quadtreePass (sqrt : F → F) (particles : List (Particle F)) (quadtree : Quadtree F) :
    PassState F × List (Nat × Nat) :=
  (List.range particles.length).foldl
    (fun st i =>
      let candidates := quadtree.retrieve [] (deref st.1.2 i)
      candidates.foldl (candidateStepLog sqrt i) st)
    ((0, particles), [])

/-- The sequence of (query, candidate) pointer pairs to which one pass of
`checkCollisionsQuadtree` applies the narrow phase. -/
def testedPairs (sqrt : F → F) (particles : List (Particle F)) (quadtree : Quadtree F) :
    List (Nat × Nat) :=
  (quadtreePass sqrt particles quadtree).2

/-- Exact arithmetic for `std::sqrt`: the non-negative root of every non-negative number. -/
def IsSqrt (sqrt : F → F) : Prop := ∀ x, 0 ≤ x → 0 ≤ sqrt x ∧ sqrt x * sqrt x = x

/-- The recursion depth that the four children allow. -/
def Nodes.fuel (ns : Nodes F) : Nat :=
  max (max ns.n0.fuel ns.n1.fuel) (max ns.n2.fuel ns.n3.fuel)


/-! ## Specification vocabulary -/

/-- Every pointer stored in the tree: the node's local list, then the four subtrees. -/
def Quadtree.all : Quadtree F → List Nat
  | .leaf _ ps _ => ps
  | .branch _ ps _ n0 n1 n2 n3 => ps ++ (n0.all ++ (n1.all ++ (n2.all ++ n3.all)))

/-- Every pointer stored under the four children. -/
def Nodes.all (ns : Nodes F) : List Nat :=
  ns.n0.all ++ (ns.n1.all ++ (ns.n2.all ++ ns.n3.all))

/-- The node and all nodes below it. -/
def Quadtree.subtrees : Quadtree F → List (Quadtree F)
  | .leaf lv ps b => [.leaf lv ps b]
  | .branch lv ps b n0 n1 n2 n3 =>
    .branch lv ps b n0 n1 n2 n3 :: (n0.subtrees ++ (n1.subtrees ++ (n2.subtrees ++ n3.subtrees)))

/-- The test `nodes[0] != nullptr`. -/
def Quadtree.hasChildren : Quadtree F → Bool
  | .leaf _ _ _ => false
  | .branch _ _ _ _ _ _ _ => true

/-- The number of levels below the node. -/
def Quadtree.depth : Quadtree F → Nat
  | .leaf _ _ _ => 0
  | .branch _ _ _ n0 n1 n2 n3 => max (max n0.depth n1.depth) (max n2.depth n3.depth) + 1

/-- Placement: at every node with children the local list holds only pointers that `getIndex`
sends to no quadrant, and child `i` holds only pointers that `getIndex` sends to `i`. -/
def Placed (mem : List (Particle F)) : Quadtree F → Prop
  | .leaf _ _ _ => True
  | .branch _ ps b n0 n1 n2 n3 =>
    (∀ k ∈ ps, getIndex b (deref mem k) = -1) ∧
    (∀ k ∈ n0.all, getIndex b (deref mem k) = 0) ∧ (∀ k ∈ n1.all, getIndex b (deref mem k) = 1) ∧
    (∀ k ∈ n2.all, getIndex b (deref mem k) = 2) ∧ (∀ k ∈ n3.all, getIndex b (deref mem k) = 3) ∧
    Placed mem n0 ∧ Placed mem n1 ∧ Placed mem n2 ∧ Placed mem n3

/-- Levels: no node lies below `MAX_LEVELS`, a node with children lies above it, and a child is
one level below its parent. -/
def Leveled : Quadtree F → Prop
  | .leaf lv _ _ => lv ≤ MAX_LEVELS
  | .branch lv _ _ n0 n1 n2 n3 =>
    lv < MAX_LEVELS ∧ n0.level = lv + 1 ∧ n1.level = lv + 1 ∧ n2.level = lv + 1 ∧
    n3.level = lv + 1 ∧ Leveled n0 ∧ Leveled n1 ∧ Leveled n2 ∧ Leveled n3

/-- What one `insert` of the pointer `k` does to the invariants of a tree. -/
structure InsertOK (mem : List (Particle F)) (t : Quadtree F) (k : Nat) (t1 : Quadtree F) :
    Prop where
  perm : t1.all.Perm (k :: t.all)
  level : t1.level = t.level
  bounds : t1.bounds = t.bounds
  placed : Placed mem t → Placed mem t1
  leveled : Leveled t → Leveled t1

/-- The node right after `particles.push_back(p)`: `ps` is the local list with `p` appended. -/
def pushed (level : Int) (ps : List Nat) (bounds : Rectangle F) (children : Option (Nodes F)) :
    Quadtree F :=
  match children with
  | none => .leaf level ps bounds
  | some ns => .branch level ps bounds ns.n0 ns.n1 ns.n2 ns.n3

/-- The axis-aligned bounding square of a particle, position ± radius, as a `Rectangle`. -/
def aabb (p : Particle F) : Rectangle F :=
  ⟨p.position.x - p.radius, p.position.y - p.radius, 2 * p.radius, 2 * p.radius⟩

/-- Capacity: a node without children whose level is below `MAX_LEVELS` holds at most
`MAX_PARTICLES` pointers in its local list. -/
def Capped : Quadtree F → Prop
  | .leaf lv ps _ => lv < MAX_LEVELS → ps.length ≤ MAX_PARTICLES
  | .branch _ _ _ n0 n1 n2 n3 => Capped n0 ∧ Capped n1 ∧ Capped n2 ∧ Capped n3

/-- The sum of the positions of all particles of the vector. -/
def sumPositions (mem : List (Particle F)) : Vector2f F :=
  ⟨(mem.map fun a => a.position.x).sum, (mem.map fun a => a.position.y).sum⟩

/-- The sum of the velocities of all particles of the vector. -/
def sumVelocities (mem : List (Particle F)) : Vector2f F :=
  ⟨(mem.map fun a => a.velocity.x).sum, (mem.map fun a => a.velocity.y).sum⟩

/-! ## Concrete inputs -/

/-- Five particles in the window of `main`: 0 and 2 in the left/top quadrant, 1 across the
vertical midline and overlapping 0, 0 overlapping 2, 3 and 4 far away. -/
def demo5 (F : Type) [LinearOrderedField F] : List (Particle F) :=
  [⟨⟨585, 100⟩, ⟨1, 0⟩, 10, 0⟩, ⟨⟨600, 100⟩, ⟨2, 0⟩, 10, 1⟩, ⟨⟨570, 100⟩, ⟨3, 0⟩, 10, 2⟩,
   ⟨⟨1000, 700⟩, ⟨4, 0⟩, 10, 3⟩, ⟨⟨1000, 100⟩, ⟨5, 0⟩, 10, 4⟩]

/-- Five particles in the window of `main`, one or two per quadrant; the squares of 0 (above)
and 1 (below) share an edge on the horizontal midline y = 400. -/
def abut5 (F : Type) [LinearOrderedField F] : List (Particle F) :=
  [⟨⟨100, 390⟩, ⟨0, 0⟩, 10, 0⟩, ⟨⟨100, 410⟩, ⟨0, 0⟩, 10, 1⟩, ⟨⟨1000, 100⟩, ⟨0, 0⟩, 10, 2⟩,
   ⟨⟨1000, 700⟩, ⟨0, 0⟩, 10, 3⟩, ⟨⟨300, 100⟩, ⟨0, 0⟩, 10, 4⟩]

/-- The particle A of the resolution example: at (100, 100), radius 10, velocity (1, 0). -/
def pairA (F : Type) [LinearOrderedField F] : Particle F := ⟨⟨100, 100⟩, ⟨1, 0⟩, 10, 0⟩

/-- The particle B of the resolution example: at (115, 100), radius 10, velocity (-1, 0). -/
def pairB (F : Type) [LinearOrderedField F] : Particle F := ⟨⟨115, 100⟩, ⟨-1, 0⟩, 10, 1⟩

/-- The particle of the wall example: at (5, 300), radius 8, velocity (-3, 0). -/
def wallP (F : Type) [LinearOrderedField F] : Particle F := ⟨⟨5, 300⟩, ⟨-3, 0⟩, 8, 0⟩

end Defs

section Theorems

set_option linter.unusedSectionVars false

variable {F : Type} [LinearOrderedField F]

/-! ## The recursion of `insert` is bounded -/

theorem insertChild_fuel {ins : Quadtree F → Nat → Option (Quadtree F)} {n : Nat}
    (hins : ∀ t k, t.fuel ≤ n → ∃ t1, ins t k = some t1 ∧ t1.fuel ≤ t.fuel)
    (index : Int) (k : Nat) (ns : Nodes F) (h : ns.fuel ≤ n) :
    ∃ ns1, insertChild ins index k ns = some ns1 ∧ ns1.fuel ≤ ns.fuel := by
  unfold Nodes.fuel at h
  unfold insertChild
  split_ifs
  · obtain ⟨t1, h1, h2⟩ := hins ns.n0 k (by omega)
    rw [h1]
    exact ⟨_, rfl, by simp only [Nodes.fuel]; omega⟩
  · obtain ⟨t1, h1, h2⟩ := hins ns.n1 k (by omega)
    rw [h1]
    exact ⟨_, rfl, by simp only [Nodes.fuel]; omega⟩
  · obtain ⟨t1, h1, h2⟩ := hins ns.n2 k (by omega)
    rw [h1]
    exact ⟨_, rfl, by simp only [Nodes.fuel]; omega⟩
  · obtain ⟨t1, h1, h2⟩ := hins ns.n3 k (by omega)
    rw [h1]
    exact ⟨_, rfl, by simp only [Nodes.fuel]; omega⟩

theorem redistribute_fuel {ins : Quadtree F → Nat → Option (Quadtree F)} {n : Nat}
    (hins : ∀ t k, t.fuel ≤ n → ∃ t1, ins t k = some t1 ∧ t1.fuel ≤ t.fuel)
    (mem : List (Particle F)) (b : Rectangle F) (l : List Nat) :
    ∀ (kept : List Nat) (ns : Nodes F), ns.fuel ≤ n →
      ∃ r, redistribute ins mem b l kept ns = some r ∧ r.2.fuel ≤ ns.fuel := by
  induction l with
  | nil => intro kept ns _; exact ⟨_, rfl, le_refl _⟩
  | cons k rest ih =>
    intro kept ns h
    simp only [redistribute]
    split_ifs with hi
    · obtain ⟨ns1, h1, h2⟩ := insertChild_fuel hins (getIndex b (deref mem k)) k ns h
      obtain ⟨r, h3, h4⟩ := ih kept ns1 (le_trans h2 h)
      rw [h1]
      exact ⟨r, h3, le_trans h4 h2⟩
    · exact ih _ ns h

theorem insertFuel_enough (mem : List (Particle F)) :
    ∀ (n : Nat) (t : Quadtree F) (k : Nat), t.fuel ≤ n →
      ∃ t1, insertFuel mem n t k = some t1 ∧ t1.fuel ≤ t.fuel := by
  intro n
  induction n with
  | zero =>
    intro t k h
    cases t <;> simp [Quadtree.fuel] at h
  | succ n ih =>
    intro t k h
    cases t with
    | leaf lv ps b =>
      simp only [insertFuel, afterPush]
      split_ifs with hc
      · have hl : lv < 8 := hc.2
        have hf : (Quadtree.split lv b).fuel ≤ n := by
          simp only [Quadtree.fuel, MAX_LEVELS] at h
          simp only [Nodes.fuel, Quadtree.split, Quadtree.new, Quadtree.fuel, MAX_LEVELS]
          omega
        obtain ⟨r, h1, h2⟩ := redistribute_fuel ih mem b (ps ++ [k]) [] _ hf
        rw [h1]
        refine ⟨_, rfl, ?_⟩
        simp only [Quadtree.fuel, MAX_LEVELS]
        simp only [Nodes.fuel, Quadtree.split, Quadtree.new, Quadtree.fuel, MAX_LEVELS] at h2
        omega
      · exact ⟨_, rfl, le_refl _⟩
    | branch lv ps b n0 n1 n2 n3 =>
      have hf : (Nodes.mk n0 n1 n2 n3).fuel ≤ n := by
        simp only [Quadtree.fuel] at h
        simp only [Nodes.fuel]
        omega
      simp only [insertFuel]
      split_ifs with hi
      · obtain ⟨ns1, h1, h2⟩ := insertChild_fuel ih (getIndex b (deref mem k)) k _ hf
        rw [h1]
        refine ⟨_, rfl, ?_⟩
        simp only [Nodes.fuel] at h2
        simp only [Quadtree.fuel]
        omega
      · simp only [afterPush]
        split_ifs with hc
        · obtain ⟨r, h1, h2⟩ := redistribute_fuel ih mem b (ps ++ [k]) [] _ hf
          rw [h1]
          refine ⟨_, rfl, ?_⟩
          simp only [Nodes.fuel] at h2
          simp only [Quadtree.fuel]
          omega
        · exact ⟨_, rfl, le_refl _⟩

theorem insertChild_mono {ins ins1 : Quadtree F → Nat → Option (Quadtree F)}
    (hins : ∀ t k t1, ins t k = some t1 → ins1 t k = some t1)
    (index : Int) (k : Nat) (ns ns1 : Nodes F) (h : insertChild ins index k ns = some ns1) :
    insertChild ins1 index k ns = some ns1 := by
  unfold insertChild at h ⊢
  split_ifs at h ⊢ <;>
  · simp only [Option.map_eq_some'] at h
    obtain ⟨a, ha, rfl⟩ := h
    simp [hins _ _ _ ha]

theorem redistribute_mono {ins ins1 : Quadtree F → Nat → Option (Quadtree F)}
    (hins : ∀ t k t1, ins t k = some t1 → ins1 t k = some t1)
    (mem : List (Particle F)) (b : Rectangle F) (l : List Nat) :
    ∀ (kept : List Nat) (ns : Nodes F) r, redistribute ins mem b l kept ns = some r →
      redistribute ins1 mem b l kept ns = some r := by
  induction l with
  | nil => intro kept ns r h; exact h
  | cons k rest ih =>
    intro kept ns r h
    simp only [redistribute] at h ⊢
    split_ifs at h ⊢ with hi
    · simp only [Option.bind_eq_some] at h
      obtain ⟨ns1, h1, h2⟩ := h
      rw [insertChild_mono hins _ _ _ _ h1]
      exact ih _ _ _ h2
    · exact ih _ _ _ h

theorem afterPush_mono {ins ins1 : Quadtree F → Nat → Option (Quadtree F)}
    (hins : ∀ t k t1, ins t k = some t1 → ins1 t k = some t1)
    (mem : List (Particle F)) (lv : Int) (ps : List Nat) (b : Rectangle F)
    (ch : Option (Nodes F)) (t1 : Quadtree F) (h : afterPush ins mem lv ps b ch = some t1) :
    afterPush ins1 mem lv ps b ch = some t1 := by
  unfold afterPush at h ⊢
  split_ifs at h ⊢ with hc
  · simp only [Option.map_eq_some'] at h
    obtain ⟨r, hr, rfl⟩ := h
    simp only [redistribute_mono hins _ _ _ _ _ _ hr, Option.map_some']
  · exact h

theorem insertFuel_succ (mem : List (Particle F)) :
    ∀ (n : Nat) (t : Quadtree F) (k : Nat) (t1 : Quadtree F),
      insertFuel mem n t k = some t1 → insertFuel mem (n + 1) t k = some t1 := by
  intro n
  induction n with
  | zero => intro t k t1 h; simp [insertFuel] at h
  | succ n ih =>
    intro t k t1 h
    cases t with
    | leaf lv ps b =>
      simp only [insertFuel] at h ⊢
      exact afterPush_mono ih _ _ _ _ _ _ h
    | branch lv ps b n0 n1 n2 n3 =>
      rw [insertFuel] at h ⊢
      simp only at h ⊢
      split_ifs at h ⊢ with hi
      · simp only [Option.map_eq_some'] at h
        obtain ⟨r, hr, rfl⟩ := h
        simp only [insertChild_mono ih _ _ _ _ hr, Option.map_some']
      · exact afterPush_mono ih _ _ _ _ _ _ h

theorem insertFuel_le (mem : List (Particle F)) {n m : Nat} (hnm : n ≤ m) (t : Quadtree F)
    (k : Nat) (t1 : Quadtree F) (h : insertFuel mem n t k = some t1) :
    insertFuel mem m t k = some t1 := by
  induction hnm with
  | refl => exact h
  | step _ ih => exact insertFuel_succ mem _ _ _ _ ih

/-- With at least `t.fuel` levels of recursion allowed, the bounded `insert` returns, and what it
returns is `t.insert mem k`. -/
theorem insertFuel_eq_insert (mem : List (Particle F)) (t : Quadtree F) (k : Nat) {n : Nat}
    (h : t.fuel ≤ n) : insertFuel mem n t k = some (t.insert mem k) := by
  obtain ⟨t1, h1, _⟩ := insertFuel_enough mem t.fuel t k (le_refl _)
  rw [insertFuel_le mem h t k t1 h1]
  simp [Quadtree.insert, h1]

/-- Whatever the bounded `insert` returns is `t.insert mem k`. -/
theorem insertFuel_some (mem : List (Particle F)) (t : Quadtree F) (k : Nat) {n : Nat}
    {t1 : Quadtree F} (h : insertFuel mem n t k = some t1) : t.insert mem k = t1 := by
  have h1 := insertFuel_le mem (le_max_left n t.fuel) t k t1 h
  have h2 := insertFuel_eq_insert mem t k (le_max_right n t.fuel)
  rw [h1] at h2
  exact (Option.some.inj h2).symm

theorem getIndex_range (b : Rectangle F) (p : Particle F) :
    getIndex b p = -1 ∨ getIndex b p = 0 ∨ getIndex b p = 1 ∨ getIndex b p = 2 ∨
      getIndex b p = 3 := by
  unfold getIndex
  simp only
  split_ifs <;> simp

theorem mem_of_perm_cons {l1 l2 : List Nat} {k x : Nat} (h : l1.Perm (k :: l2)) (hx : x ∈ l1) :
    x = k ∨ x ∈ l2 := by
  have := h.subset hx
  simpa using this

theorem insertChild_ok {ins : Quadtree F → Nat → Option (Quadtree F)} {mem : List (Particle F)}
    (hins : ∀ t k t1, ins t k = some t1 → InsertOK mem t k t1)
    (b : Rectangle F) (k : Nat) (ns ns1 : Nodes F) (hne : getIndex b (deref mem k) ≠ -1)
    (h : insertChild ins (getIndex b (deref mem k)) k ns = some ns1) :
    InsertOK mem (.branch lv ps b ns.n0 ns.n1 ns.n2 ns.n3) k
      (.branch lv ps b ns1.n0 ns1.n1 ns1.n2 ns1.n3) := by
  unfold insertChild at h
  have hr := getIndex_range b (deref mem k)
  split_ifs at h with h0 h1 h2
  all_goals
    simp only [Option.map_eq_some'] at h
    obtain ⟨a, ha, rfl⟩ := h
    have ok := hins _ _ _ ha
    have hm := fun x hx => mem_of_perm_cons (x := x) ok.perm hx
    refine ⟨?_, rfl, rfl, ?_, ?_⟩
    · rw [List.perm_iff_count]
      intro x
      have := List.perm_iff_count.mp ok.perm x
      simp only [Quadtree.all, List.count_append, List.count_cons] at this ⊢
      omega
    · intro hp
      simp only [Placed] at hp ⊢
      obtain ⟨p0, p1, p2, p3, p4, q1, q2, q3, q4⟩ := hp
      refine ⟨p0, ?_, ?_, ?_, ?_, ?_, ?_, ?_, ?_⟩ <;>
        first
        | assumption
        | exact ok.placed (by assumption)
        | (intro x hx
           rcases hm x hx with rfl | hx
           · omega
           · first | exact p1 x hx | exact p2 x hx | exact p3 x hx | exact p4 x hx)
    · intro hl
      simp only [Leveled] at hl ⊢
      obtain ⟨p0, p1, p2, p3, p4, q1, q2, q3, q4⟩ := hl
      refine ⟨p0, ?_, ?_, ?_, ?_, ?_, ?_, ?_, ?_⟩ <;>
        first
        | assumption
        | exact ok.leveled (by assumption)
        | (rw [ok.level]; assumption)

theorem redistribute_ok {ins : Quadtree F → Nat → Option (Quadtree F)} {mem : List (Particle F)}
    (hins : ∀ t k t1, ins t k = some t1 → InsertOK mem t k t1)
    (lv : Int) (b : Rectangle F) (l : List Nat) :
    ∀ (kept : List Nat) (ns : Nodes F) (r : List Nat × Nodes F),
      redistribute ins mem b l kept ns = some r →
      (Quadtree.branch lv r.1 b r.2.n0 r.2.n1 r.2.n2 r.2.n3).all.Perm
          (l ++ (Quadtree.branch lv kept b ns.n0 ns.n1 ns.n2 ns.n3).all) ∧
        (Placed mem (.branch lv kept b ns.n0 ns.n1 ns.n2 ns.n3) →
          Placed mem (.branch lv r.1 b r.2.n0 r.2.n1 r.2.n2 r.2.n3)) ∧
        (Leveled (Quadtree.branch lv kept b ns.n0 ns.n1 ns.n2 ns.n3) →
          Leveled (Quadtree.branch lv r.1 b r.2.n0 r.2.n1 r.2.n2 r.2.n3)) := by
  induction l with
  | nil =>
    intro kept ns r h
    simp only [redistribute, Option.some.injEq] at h
    subst h
    exact ⟨by simp, id, id⟩
  | cons k rest ih =>
    intro kept ns r h
    simp only [redistribute] at h
    split_ifs at h with hi
    · simp only [Option.bind_eq_some] at h
      obtain ⟨ns1, h1, h2⟩ := h
      have ok : InsertOK mem (.branch lv kept b ns.n0 ns.n1 ns.n2 ns.n3) k
          (.branch lv kept b ns1.n0 ns1.n1 ns1.n2 ns1.n3) :=
        insertChild_ok hins b k ns ns1 hi h1
      obtain ⟨i1, i2, i3⟩ := ih kept ns1 r h2
      refine ⟨?_, fun hp => i2 (ok.placed hp), fun hl => i3 (ok.leveled hl)⟩
      rw [List.perm_iff_count]
      intro x
      have e1 := List.perm_iff_count.mp ok.perm x
      have e2 := List.perm_iff_count.mp i1 x
      simp only [List.count_append, List.count_cons] at e1 e2 ⊢
      omega
    · have hi1 : getIndex b (deref mem k) = -1 := by simpa using hi
      obtain ⟨i1, i2, i3⟩ := ih (kept ++ [k]) ns r h
      refine ⟨?_, fun hp => i2 ?_, fun hl => i3 ?_⟩
      · rw [List.perm_iff_count]
        intro x
        have e2 := List.perm_iff_count.mp i1 x
        simp only [Quadtree.all, List.count_append, List.count_cons, List.count_nil] at e2 ⊢
        omega
      · simp only [Placed] at hp ⊢
        refine ⟨?_, hp.2⟩
        intro x hx
        rcases List.mem_append.mp hx with hx | hx
        · exact hp.1 x hx
        · simp only [List.mem_singleton] at hx
          subst hx
          exact hi1
      · simpa only [Leveled] using hl

theorem afterPush_ok {ins : Quadtree F → Nat → Option (Quadtree F)} {mem : List (Particle F)}
    (hins : ∀ t k t1, ins t k = some t1 → InsertOK mem t k t1)
    (lv : Int) (ps : List Nat) (b : Rectangle F) (ch : Option (Nodes F)) (t1 : Quadtree F)
    (h : afterPush ins mem lv ps b ch = some t1) :
    t1.all.Perm (pushed lv ps b ch).all ∧ t1.level = lv ∧ t1.bounds = b ∧
      (Placed mem (pushed lv ps b ch) → Placed mem t1) ∧
      (Leveled (pushed lv ps b ch) → Leveled t1) := by
  unfold afterPush at h
  split_ifs at h with hc
  · simp only [Option.map_eq_some'] at h
    obtain ⟨r, hr, rfl⟩ := h
    obtain ⟨i1, i2, i3⟩ := redistribute_ok hins lv b ps [] _ r hr
    refine ⟨?_, rfl, rfl, ?_, ?_⟩
    · refine i1.trans ?_
      cases ch with
      | none => simp [pushed, Quadtree.all, Quadtree.split, Quadtree.new]
      | some ns => simp [pushed, Quadtree.all]
    · intro hp
      apply i2
      cases ch with
      | none => simp [Placed, Quadtree.all, Quadtree.split, Quadtree.new]
      | some ns =>
        simp only [pushed, Placed] at hp ⊢
        exact ⟨by simp, hp.2⟩
    · intro hl
      apply i3
      cases ch with
      | none =>
        have hlt : lv < 8 := hc.2
        simp only [Leveled, Quadtree.split, Quadtree.new, Quadtree.level, MAX_LEVELS,
          and_self, and_true, true_and]
        omega
      | some ns => simpa only [pushed, Leveled] using hl
  · cases ch with
    | none =>
      simp only [Option.some.injEq] at h
      subst h
      exact ⟨List.Perm.refl _, rfl, rfl, id, id⟩
    | some ns =>
      simp only [Option.some.injEq] at h
      subst h
      exact ⟨List.Perm.refl _, rfl, rfl, id, id⟩

theorem insertFuel_ok (mem : List (Particle F)) :
    ∀ (n : Nat) (t : Quadtree F) (k : Nat) (t1 : Quadtree F),
      insertFuel mem n t k = some t1 → InsertOK mem t k t1 := by
  intro n
  induction n with
  | zero => intro t k t1 h; simp [insertFuel] at h
  | succ n ih =>
    intro t k t1 h
    cases t with
    | leaf lv ps b =>
      simp only [insertFuel] at h
      obtain ⟨i1, i2, i3, i4, i5⟩ := afterPush_ok ih _ _ _ _ _ h
      refine ⟨?_, i2, i3, fun _ => i4 (by simp [pushed, Placed]), fun hl => i5 ?_⟩
      · refine i1.trans ?_
        simp only [pushed, Quadtree.all]
        exact List.perm_append_singleton k ps
      · simpa only [pushed, Leveled] using hl
    | branch lv ps b n0 n1 n2 n3 =>
      rw [insertFuel] at h
      simp only at h
      split_ifs at h with hi
      · simp only [Option.map_eq_some'] at h
        obtain ⟨ns1, h1, rfl⟩ := h
        exact insertChild_ok ih b k ⟨n0, n1, n2, n3⟩ ns1 hi h1
      · have hi1 : getIndex b (deref mem k) = -1 := by simpa using hi
        obtain ⟨i1, i2, i3, i4, i5⟩ := afterPush_ok ih _ _ _ _ _ h
        refine ⟨?_, i2, i3, fun hp => i4 ?_, fun hl => i5 ?_⟩
        · refine i1.trans ?_
          simp only [pushed, Quadtree.all]
          rw [List.perm_iff_count]
          intro x
          simp only [List.count_append, List.count_cons, List.count_nil]
          omega
        · simp only [pushed, Placed] at hp ⊢
          refine ⟨?_, hp.2⟩
          intro x hx
          rcases List.mem_append.mp hx with hx | hx
          · exact hp.1 x hx
          · simp only [List.mem_singleton] at hx
            subst hx
            exact hi1
        · simpa only [pushed, Leveled] using hl

/-- One `insert` keeps the invariants: it adds exactly the pointer `k`, and keeps the node's
level and bounds, the placement and the levels. -/
theorem insert_ok (mem : List (Particle F)) (t : Quadtree F) (k : Nat) :
    InsertOK mem t k (t.insert mem k) :=
  insertFuel_ok mem _ t k _ (insertFuel_eq_insert mem t k (le_refl _))

theorem build_ok (mem : List (Particle F)) (b : Rectangle F) (ks : List Nat) :
    (build mem b ks).all.Perm ks ∧ (build mem b ks).level = 0 ∧ (build mem b ks).bounds = b ∧
      Placed mem (build mem b ks) ∧ Leveled (build mem b ks) := by
  unfold build
  induction ks using List.reverseRecOn with
  | nil => simp [Quadtree.new, Quadtree.all, Quadtree.level, Quadtree.bounds, Placed, Leveled,
      MAX_LEVELS]
  | append_singleton ks k ih =>
    rw [List.foldl_append]
    simp only [List.foldl_cons, List.foldl_nil]
    obtain ⟨i1, i2, i3, i4, i5⟩ := ih
    have ok := insert_ok mem (List.foldl (Quadtree.insert mem) (Quadtree.new 0 b) ks) k
    refine ⟨?_, ok.level.trans i2, ok.bounds.trans i3, ok.placed i4, ok.leveled i5⟩
    refine ok.perm.trans ?_
    exact (List.Perm.cons k i1).trans (List.perm_append_singleton k ks).symm

theorem retrieve_subset (t : Quadtree F) :
    ∀ (ret : List Nat) (q : Particle F) (x : Nat), x ∈ ret → x ∈ t.retrieve ret q := by
  induction t with
  | leaf lv ps b => intro ret q x hx; simp [Quadtree.retrieve, hx]
  | branch lv ps b n0 n1 n2 n3 ih0 ih1 ih2 ih3 =>
    intro ret q x hx
    simp only [Quadtree.retrieve]
    split_ifs
    all_goals
      first
      | exact ih3 _ _ _ (ih2 _ _ _ (ih1 _ _ _ (ih0 _ _ _ (List.mem_append_left _ hx))))
      | exact List.mem_append_left _ (ih0 _ _ _ hx)
      | exact List.mem_append_left _ (ih1 _ _ _ hx)
      | exact List.mem_append_left _ (ih2 _ _ _ hx)
      | exact List.mem_append_left _ (ih3 _ _ _ hx)
      | omega

/-- The node's own local list is always among the candidates. -/
theorem retrieve_local (t : Quadtree F) (ret : List Nat) (q : Particle F) (x : Nat)
    (hx : x ∈ t.particles) : x ∈ t.retrieve ret q := by
  cases t with
  | leaf lv ps b => simp only [Quadtree.particles] at hx; simp [Quadtree.retrieve, hx]
  | branch lv ps b n0 n1 n2 n3 =>
    simp only [Quadtree.particles] at hx
    simp only [Quadtree.retrieve]
    split_ifs
    all_goals
      first
      | exact retrieve_subset _ _ _ _ (retrieve_subset _ _ _ _ (retrieve_subset _ _ _ _
          (retrieve_subset _ _ _ _ (List.mem_append_right _ hx))))
      | exact List.mem_append_right _ hx

theorem getIndex_straddle {b : Rectangle F} {p : Particle F}
    (h1 : p.position.x - p.radius ≤ b.x + b.width / 2)
    (h2 : b.x + b.width / 2 ≤ p.position.x + p.radius) : getIndex b p = -1 := by
  unfold getIndex
  simp only
  rw [if_neg (fun h => absurd h.2 (not_lt.mpr h2)), if_neg (not_lt.mpr h1)]

theorem redistribute_kept {ins : Quadtree F → Nat → Option (Quadtree F)}
    (mem : List (Particle F)) (b : Rectangle F) (l : List Nat) :
    ∀ (kept : List Nat) (ns : Nodes F) (r : List Nat × Nodes F),
      redistribute ins mem b l kept ns = some r →
      ∀ x, (x ∈ kept ∨ (x ∈ l ∧ getIndex b (deref mem x) = -1)) → x ∈ r.1 := by
  induction l with
  | nil =>
    intro kept ns r h x hx
    simp only [redistribute, Option.some.injEq] at h
    subst h
    simpa using hx
  | cons k rest ih =>
    intro kept ns r h x hx
    simp only [redistribute] at h
    split_ifs at h with hi
    · simp only [Option.bind_eq_some] at h
      obtain ⟨ns1, _, h2⟩ := h
      refine ih kept ns1 r h2 x ?_
      rcases hx with hx | ⟨hx, hxi⟩
      · exact Or.inl hx
      · rcases List.mem_cons.mp hx with rfl | hx
        · exact absurd hxi hi
        · exact Or.inr ⟨hx, hxi⟩
    · refine ih (kept ++ [k]) ns r h x ?_
      rcases hx with hx | ⟨hx, hxi⟩
      · exact Or.inl (List.mem_append_left _ hx)
      · rcases List.mem_cons.mp hx with rfl | hx
        · exact Or.inl (by simp)
        · exact Or.inr ⟨hx, hxi⟩

theorem afterPush_kept {ins : Quadtree F → Nat → Option (Quadtree F)}
    (mem : List (Particle F)) (lv : Int) (ps : List Nat) (b : Rectangle F)
    (ch : Option (Nodes F)) (t1 : Quadtree F) (h : afterPush ins mem lv ps b ch = some t1)
    (x : Nat) (hx : x ∈ ps) (hxi : getIndex b (deref mem x) = -1) : x ∈ t1.particles := by
  unfold afterPush at h
  split_ifs at h with hc
  · simp only [Option.map_eq_some'] at h
    obtain ⟨r, hr, rfl⟩ := h
    exact redistribute_kept mem b ps [] _ r hr x (Or.inr ⟨hx, hxi⟩)
  · cases ch with
    | none =>
      simp only [Option.some.injEq] at h
      subst h
      exact hx
    | some ns =>
      simp only [Option.some.injEq] at h
      subst h
      exact hx

theorem insertFuel_kept (mem : List (Particle F)) (n : Nat) (t : Quadtree F) (k : Nat)
    (t1 : Quadtree F) (h : insertFuel mem n t k = some t1) (x : Nat)
    (hxi : getIndex t.bounds (deref mem x) = -1) (hx : x = k ∨ x ∈ t.particles) :
    x ∈ t1.particles := by
  cases n with
  | zero => simp [insertFuel] at h
  | succ n =>
    cases t with
    | leaf lv ps b =>
      simp only [insertFuel] at h
      simp only [Quadtree.bounds] at hxi
      simp only [Quadtree.particles] at hx
      refine afterPush_kept mem _ _ _ _ _ h x ?_ hxi
      rcases hx with rfl | hx <;> simp [*]
    | branch lv ps b n0 n1 n2 n3 =>
      rw [insertFuel] at h
      simp only at h
      simp only [Quadtree.bounds] at hxi
      simp only [Quadtree.particles] at hx
      split_ifs at h with hi
      · simp only [Option.map_eq_some'] at h
        obtain ⟨ns1, _, rfl⟩ := h
        simp only [Quadtree.particles]
        rcases hx with rfl | hx
        · exact absurd hxi hi
        · exact hx
      · refine afterPush_kept mem _ _ _ _ _ h x ?_ hxi
        rcases hx with rfl | hx <;> simp [*]

/-- A pointer that `getIndex` sends to no quadrant of the root is in the root's local list from
its own `insert` on, whatever is inserted afterwards. -/
theorem build_kept (mem : List (Particle F)) (b : Rectangle F) (ks : List Nat) (x : Nat)
    (hx : x ∈ ks) (hxi : getIndex b (deref mem x) = -1) : x ∈ (build mem b ks).particles := by
  induction ks using List.reverseRecOn with
  | nil => simp at hx
  | append_singleton ks k ih =>
    have hb : (build mem b ks).bounds = b := (build_ok mem b ks).2.2.1
    have e : build mem b (ks ++ [k]) = (build mem b ks).insert mem k := by
      simp [build, List.foldl_append]
    rw [e]
    refine insertFuel_kept mem _ _ k _ (insertFuel_eq_insert mem _ k (le_refl _)) x
      (by rw [hb]; exact hxi) ?_
    rcases List.mem_append.mp hx with hx | hx
    · exact Or.inr (ih hx)
    · exact Or.inl (by simpa using hx)

theorem leveled_subtrees (t : Quadtree F) :
    Leveled t → ∀ n ∈ t.subtrees,
      n.level ≤ MAX_LEVELS ∧ (n.hasChildren = true → n.level < MAX_LEVELS) := by
  induction t with
  | leaf lv ps b =>
    intro h n hn
    simp only [Quadtree.subtrees, List.mem_singleton] at hn
    subst hn
    simp only [Leveled] at h
    simp [Quadtree.level, Quadtree.hasChildren, h]
  | branch lv ps b n0 n1 n2 n3 ih0 ih1 ih2 ih3 =>
    intro h n hn
    simp only [Leveled] at h
    obtain ⟨h0, _, _, _, _, l0, l1, l2, l3⟩ := h
    simp only [Quadtree.subtrees, List.mem_cons, List.mem_append] at hn
    rcases hn with rfl | hn | hn | hn | hn
    · simp only [Quadtree.level, Quadtree.hasChildren]
      exact ⟨le_of_lt h0, fun _ => h0⟩
    · exact ih0 l0 n hn
    · exact ih1 l1 n hn
    · exact ih2 l2 n hn
    · exact ih3 l3 n hn

theorem leveled_depth_fuel (t : Quadtree F) :
    Leveled t → 0 ≤ t.level →
      (t.depth : Int) + t.level ≤ 8 ∧ (t.fuel : Int) + t.level ≤ 9 := by
  induction t with
  | leaf lv ps b =>
    intro h h0
    simp only [Leveled, MAX_LEVELS] at h
    simp only [Quadtree.level] at h0
    simp only [Quadtree.depth, Quadtree.fuel, Quadtree.level, MAX_LEVELS]
    omega
  | branch lv ps b n0 n1 n2 n3 ih0 ih1 ih2 ih3 =>
    intro h h0
    simp only [Leveled, MAX_LEVELS] at h
    obtain ⟨hl, e0, e1, e2, e3, l0, l1, l2, l3⟩ := h
    simp only [Quadtree.level] at h0
    have a0 := ih0 l0 (by omega)
    have a1 := ih1 l1 (by omega)
    have a2 := ih2 l2 (by omega)
    have a3 := ih3 l3 (by omega)
    simp only [Quadtree.depth, Quadtree.fuel, Quadtree.level]
    omega

/-! ## Inserts that can be computed outright -/

theorem insertFuel_leaf (mem : List (Particle F)) (n : Nat) (lv : Int) (ps : List Nat)
    (b : Rectangle F) (k : Nat) :
    insertFuel mem (n + 1) (.leaf lv ps b) k =
      afterPush (insertFuel mem n) mem lv (ps ++ [k]) b none := rfl

theorem insertFuel_branch (mem : List (Particle F)) (n : Nat) (lv : Int) (ps : List Nat)
    (b : Rectangle F) (n0 n1 n2 n3 : Quadtree F) (k : Nat) :
    insertFuel mem (n + 1) (.branch lv ps b n0 n1 n2 n3) k =
      if getIndex b (deref mem k) ≠ -1 then
        (insertChild (insertFuel mem n) (getIndex b (deref mem k)) k ⟨n0, n1, n2, n3⟩).map
          fun ns => Quadtree.branch lv ps b ns.n0 ns.n1 ns.n2 ns.n3
      else afterPush (insertFuel mem n) mem lv (ps ++ [k]) b (some ⟨n0, n1, n2, n3⟩) := rfl

/-- An `insert` into a node without children that stays within `MAX_PARTICLES` only appends. -/
theorem insert_leaf_small (mem : List (Particle F)) (lv : Int) (ps : List Nat) (b : Rectangle F)
    (k : Nat) (h : (ps ++ [k]).length ≤ MAX_PARTICLES) :
    (Quadtree.leaf lv ps b).insert mem k = .leaf lv (ps ++ [k]) b := by
  apply insertFuel_some mem _ k (n := 1)
  simp only [insertFuel, afterPush]
  rw [if_neg (fun hc => absurd hc.1 (not_lt.mpr h))]

theorem insertFuel_leaf_small (mem : List (Particle F)) (n : Nat) (lv : Int) (ps : List Nat)
    (b : Rectangle F) (k : Nat) (h : (ps ++ [k]).length ≤ MAX_PARTICLES) :
    insertFuel mem (n + 1) (.leaf lv ps b) k = some (.leaf lv (ps ++ [k]) b) := by
  simp only [insertFuel, afterPush]
  rw [if_neg (fun hc => absurd hc.1 (not_lt.mpr h))]

/-- The loop of `insert` over children that are nodes without children and have room for what
they receive: every pointer goes to the end of the list of the child `getIndex` names, and the
pointers that `getIndex` sends to no quadrant stay, in order. -/
theorem redistribute_leaves (mem : List (Particle F)) (b : Rectangle F) (n : Nat) (lv1 : Int)
    (b0 b1 b2 b3 : Rectangle F) (l : List Nat) :
    ∀ (kept c0 c1 c2 c3 : List Nat),
      (c0 ++ l.filter (fun k => getIndex b (deref mem k) = 0)).length ≤ MAX_PARTICLES →
      (c1 ++ l.filter (fun k => getIndex b (deref mem k) = 1)).length ≤ MAX_PARTICLES →
      (c2 ++ l.filter (fun k => getIndex b (deref mem k) = 2)).length ≤ MAX_PARTICLES →
      (c3 ++ l.filter (fun k => getIndex b (deref mem k) = 3)).length ≤ MAX_PARTICLES →
      redistribute (insertFuel mem (n + 1)) mem b l kept
          ⟨.leaf lv1 c0 b0, .leaf lv1 c1 b1, .leaf lv1 c2 b2, .leaf lv1 c3 b3⟩ =
        some (kept ++ l.filter (fun k => getIndex b (deref mem k) = -1),
          ⟨.leaf lv1 (c0 ++ l.filter (fun k => getIndex b (deref mem k) = 0)) b0,
           .leaf lv1 (c1 ++ l.filter (fun k => getIndex b (deref mem k) = 1)) b1,
           .leaf lv1 (c2 ++ l.filter (fun k => getIndex b (deref mem k) = 2)) b2,
           .leaf lv1 (c3 ++ l.filter (fun k => getIndex b (deref mem k) = 3)) b3⟩) := by
  induction l with
  | nil => intro kept c0 c1 c2 c3 _ _ _ _; simp [redistribute]
  | cons k rest ih =>
    intro kept c0 c1 c2 c3 h0 h1 h2 h3
    simp only [redistribute]
    rcases getIndex_range b (deref mem k) with e | e | e | e | e
    all_goals
      simp only [e, List.filter_cons, decide_True, decide_False, ite_true, ite_false,
        reduceCtorEq, Int.reduceNeg, Int.reduceEq, Int.reduceNegSucc] at h0 h1 h2 h3 ⊢
    · simp at h0 h1 h2 h3 ⊢
      have := ih (kept ++ [k]) c0 c1 c2 c3 (by simpa using h0) (by simpa using h1)
        (by simpa using h2) (by simpa using h3)
      simpa using this
    · simp at h0 h1 h2 h3 ⊢
      have hk : (c0 ++ [k]).length ≤ MAX_PARTICLES := by simp; omega
      have := ih kept (c0 ++ [k]) c1 c2 c3 (by simp; omega) (by simpa using h1)
        (by simpa using h2) (by simpa using h3)
      simpa [insertChild, insertFuel_leaf_small mem n lv1 c0 b0 k hk] using this
    · simp at h0 h1 h2 h3 ⊢
      have hk : (c1 ++ [k]).length ≤ MAX_PARTICLES := by simp; omega
      have := ih kept c0 (c1 ++ [k]) c2 c3 (by simpa using h0) (by simp; omega)
        (by simpa using h2) (by simpa using h3)
      simpa [insertChild, insertFuel_leaf_small mem n lv1 c1 b1 k hk] using this
    · simp at h0 h1 h2 h3 ⊢
      have hk : (c2 ++ [k]).length ≤ MAX_PARTICLES := by simp; omega
      have := ih kept c0 c1 (c2 ++ [k]) c3 (by simpa using h0) (by simpa using h1)
        (by simp; omega) (by simpa using h3)
      simpa [insertChild, insertFuel_leaf_small mem n lv1 c2 b2 k hk] using this
    · simp at h0 h1 h2 h3 ⊢
      have hk : (c3 ++ [k]).length ≤ MAX_PARTICLES := by simp; omega
      have := ih kept c0 c1 c2 (c3 ++ [k]) (by simpa using h0) (by simpa using h1)
        (by simpa using h2) (by simp; omega)
      simpa [insertChild, insertFuel_leaf_small mem n lv1 c3 b3 k hk] using this

/-- The first split of a node without children, when no child receives more than
`MAX_PARTICLES`: the four children are nodes without children that hold what `getIndex` sends
them, and the node keeps what `getIndex` sends to no quadrant. -/
theorem insert_leaf_split (mem : List (Particle F)) (lv : Int) (ps : List Nat) (b : Rectangle F)
    (k : Nat) (hlen : (ps ++ [k]).length > MAX_PARTICLES) (hlv : lv < MAX_LEVELS)
    (h0 : ((ps ++ [k]).filter (fun k => getIndex b (deref mem k) = 0)).length ≤ MAX_PARTICLES)
    (h1 : ((ps ++ [k]).filter (fun k => getIndex b (deref mem k) = 1)).length ≤ MAX_PARTICLES)
    (h2 : ((ps ++ [k]).filter (fun k => getIndex b (deref mem k) = 2)).length ≤ MAX_PARTICLES)
    (h3 : ((ps ++ [k]).filter (fun k => getIndex b (deref mem k) = 3)).length ≤ MAX_PARTICLES) :
    (Quadtree.leaf lv ps b).insert mem k =
      .branch lv ((ps ++ [k]).filter (fun k => getIndex b (deref mem k) = -1)) b
        (.leaf (lv + 1) ((ps ++ [k]).filter (fun k => getIndex b (deref mem k) = 0))
          (splitBounds b 0))
        (.leaf (lv + 1) ((ps ++ [k]).filter (fun k => getIndex b (deref mem k) = 1))
          (splitBounds b 1))
        (.leaf (lv + 1) ((ps ++ [k]).filter (fun k => getIndex b (deref mem k) = 2))
          (splitBounds b 2))
        (.leaf (lv + 1) ((ps ++ [k]).filter (fun k => getIndex b (deref mem k) = 3))
          (splitBounds b 3)) := by
  apply insertFuel_some mem _ k (n := 2)
  rw [insertFuel_leaf]
  unfold afterPush
  rw [if_pos ⟨hlen, hlv⟩]
  have := redistribute_leaves mem b 0 (lv + 1) (splitBounds b 0) (splitBounds b 1)
    (splitBounds b 2) (splitBounds b 3) (ps ++ [k]) [] [] [] [] []
    (by simpa using h0) (by simpa using h1) (by simpa using h2) (by simpa using h3)
  simp only [Quadtree.split, Quadtree.new]
  simp only [zero_add] at this
  rw [this]
  simp

/-- Up to `MAX_PARTICLES` pointers stay in the root, in insertion order. -/
theorem build_small (mem : List (Particle F)) (b : Rectangle F) (ks : List Nat)
    (h : ks.length ≤ MAX_PARTICLES) : build mem b ks = .leaf 0 ks b := by
  induction ks using List.reverseRecOn with
  | nil => rfl
  | append_singleton ks k ih =>
    have e : build mem b (ks ++ [k]) = (build mem b ks).insert mem k := by
      simp [build, List.foldl_append]
    rw [e, ih (by simp at h; omega), insert_leaf_small mem 0 ks b k h]

/-- Five pointers of which no quadrant receives all: the fifth `insert` splits the root once. -/
theorem build_five (mem : List (Particle F)) (b : Rectangle F) (ks : List Nat)
    (h5 : ks.length = 5)
    (h0 : (ks.filter (fun k => getIndex b (deref mem k) = 0)).length ≤ MAX_PARTICLES)
    (h1 : (ks.filter (fun k => getIndex b (deref mem k) = 1)).length ≤ MAX_PARTICLES)
    (h2 : (ks.filter (fun k => getIndex b (deref mem k) = 2)).length ≤ MAX_PARTICLES)
    (h3 : (ks.filter (fun k => getIndex b (deref mem k) = 3)).length ≤ MAX_PARTICLES) :
    build mem b ks =
      .branch 0 (ks.filter (fun k => getIndex b (deref mem k) = -1)) b
        (.leaf 1 (ks.filter (fun k => getIndex b (deref mem k) = 0)) (splitBounds b 0))
        (.leaf 1 (ks.filter (fun k => getIndex b (deref mem k) = 1)) (splitBounds b 1))
        (.leaf 1 (ks.filter (fun k => getIndex b (deref mem k) = 2)) (splitBounds b 2))
        (.leaf 1 (ks.filter (fun k => getIndex b (deref mem k) = 3)) (splitBounds b 3)) := by
  rcases List.eq_nil_or_concat ks with rfl | ⟨l, k, rfl⟩
  · simp at h5
  · rw [List.concat_eq_append] at h5 h0 h1 h2 h3 ⊢
    have hl : l.length = 4 := by simpa using h5
    have e : build mem b (l ++ [k]) = (build mem b l).insert mem k := by
      simp [build, List.foldl_append]
    rw [e, build_small mem b l (by simp [MAX_PARTICLES, hl])]
    exact insert_leaf_split mem 0 l b k (by simp [MAX_PARTICLES, hl]) (by decide) h0 h1 h2 h3

/-! ## Exact square roots -/

theorem IsSqrt.eq_of_sq {sqrt : F → F} (hs : IsSqrt sqrt) {x y : F} (hy : 0 ≤ y)
    (h : y * y = x) : sqrt x = y := by
  obtain ⟨h0, h2⟩ := hs x (by rw [← h]; exact mul_self_nonneg y)
  have : sqrt x * sqrt x = y * y := by rw [h2, h]
  exact (mul_self_inj h0 hy).mp this

theorem isSqrt_real : IsSqrt Real.sqrt :=
  fun x hx => ⟨Real.sqrt_nonneg x, Real.mul_self_sqrt hx⟩

/-! ## The concrete inputs, evaluated -/

theorem demo5_index (F : Type) [LinearOrderedField F] :
    getIndex window (deref (demo5 F) 0) = 1 ∧ getIndex window (deref (demo5 F) 1) = -1 ∧
    getIndex window (deref (demo5 F) 2) = 1 ∧ getIndex window (deref (demo5 F) 3) = 3 ∧
    getIndex window (deref (demo5 F) 4) = 0 := by
  refine ⟨?_, ?_, ?_, ?_, ?_⟩ <;> simp [getIndex, window, deref, demo5] <;> norm_num

theorem abut5_index (F : Type) [LinearOrderedField F] :
    getIndex window (deref (abut5 F) 0) = 1 ∧ getIndex window (deref (abut5 F) 1) = 2 ∧
    getIndex window (deref (abut5 F) 2) = 0 ∧ getIndex window (deref (abut5 F) 3) = 3 ∧
    getIndex window (deref (abut5 F) 4) = 1 := by
  refine ⟨?_, ?_, ?_, ?_, ?_⟩ <;> simp [getIndex, window, deref, abut5] <;> norm_num

theorem demo5_build (F : Type) [LinearOrderedField F] :
    build (demo5 F) window [0, 1, 2, 3, 4] =
      .branch 0 [1] window (.leaf 1 [4] (splitBounds window 0))
        (.leaf 1 [0, 2] (splitBounds window 1)) (.leaf 1 [] (splitBounds window 2))
        (.leaf 1 [3] (splitBounds window 3)) := by
  obtain ⟨e0, e1, e2, e3, e4⟩ := demo5_index F
  rw [build_five] <;> simp [List.filter, e0, e1, e2, e3, e4, MAX_PARTICLES]

/-- C6. Five particle pointers, each sent by `getIndex` to a single quadrant of the root and not
all to the same one, inserted into an empty level-0 root: the result is the root with an empty
local list and four children without children of their own, child `i` holding exactly the
pointers that `getIndex` sends to `i`, in insertion order. -/
theorem C6_five_particles_split_once (mem : List (Particle F)) (bounds : Rectangle F)
    (ks : List Nat) (h5 : ks.length = 5)
    (hfit : ∀ k ∈ ks, getIndex bounds (deref mem k) ≠ -1)
    (hspread : ∃ j ∈ ks, ∃ k ∈ ks,
      getIndex bounds (deref mem j) ≠ getIndex bounds (deref mem k)) :
    build mem bounds ks =
      .branch 0 [] bounds
        (.leaf 1 (ks.filter (fun k => getIndex bounds (deref mem k) = 0)) (splitBounds bounds 0))
        (.leaf 1 (ks.filter (fun k => getIndex bounds (deref mem k) = 1)) (splitBounds bounds 1))
        (.leaf 1 (ks.filter (fun k => getIndex bounds (deref mem k) = 2)) (splitBounds bounds 2))
        (.leaf 1 (ks.filter (fun k => getIndex bounds (deref mem k) = 3))
          (splitBounds bounds 3)) := by
  obtain ⟨j, hj, k, hk, hjk⟩ := hspread
  have hlt : ∀ i : Int,
      (ks.filter (fun k => getIndex bounds (deref mem k) = i)).length ≤ MAX_PARTICLES := by
    intro i
    have : (ks.filter (fun k => getIndex bounds (deref mem k) = i)).length < ks.length := by
      rw [List.length_filter_lt_length_iff_exists]
      by_cases hji : getIndex bounds (deref mem j) = i
      · exact ⟨k, hk, by simpa using fun e => hjk (hji.trans e.symm)⟩
      · exact ⟨j, hj, by simpa using hji⟩
    simp only [MAX_PARTICLES]
    omega
  have hnone : ks.filter (fun k => getIndex bounds (deref mem k) = -1) = [] := by
    rw [List.filter_eq_nil_iff]
    intro x hx
    simpa using hfit x hx
  rw [build_five mem bounds ks h5 (hlt 0) (hlt 1) (hlt 2) (hlt 3), hnone]

/-- C6 at a concrete input: the five particles of `abut5` over the rationals. -/
theorem C6_witness :
    ([0, 1, 2, 3, 4] : List Nat).length = 5 ∧
      (∀ k ∈ [0, 1, 2, 3, 4], getIndex window (deref (abut5 ℚ) k) ≠ -1) ∧
      (∃ j ∈ [0, 1, 2, 3, 4], ∃ k ∈ [0, 1, 2, 3, 4],
        getIndex window (deref (abut5 ℚ) j) ≠ getIndex window (deref (abut5 ℚ) k)) ∧
      build (abut5 ℚ) window [0, 1, 2, 3, 4] =
        .branch 0 [] window
          (.leaf 1 ([0, 1, 2, 3, 4].filter (fun k => getIndex window (deref (abut5 ℚ) k) = 0))
            (splitBounds window 0))
          (.leaf 1 ([0, 1, 2, 3, 4].filter (fun k => getIndex window (deref (abut5 ℚ) k) = 1))
            (splitBounds window 1))
          (.leaf 1 ([0, 1, 2, 3, 4].filter (fun k => getIndex window (deref (abut5 ℚ) k) = 2))
            (splitBounds window 2))
          (.leaf 1 ([0, 1, 2, 3, 4].filter (fun k => getIndex window (deref (abut5 ℚ) k) = 3))
            (splitBounds window 3)) :=
  have hfit : ∀ k ∈ [0, 1, 2, 3, 4], getIndex window (deref (abut5 ℚ) k) ≠ -1 := by
    obtain ⟨e0, e1, e2, e3, e4⟩ := abut5_index ℚ
    simp [e0, e1, e2, e3, e4]
  have hspread : ∃ j ∈ [0, 1, 2, 3, 4], ∃ k ∈ [0, 1, 2, 3, 4],
      getIndex window (deref (abut5 ℚ) j) ≠ getIndex window (deref (abut5 ℚ) k) := by
    obtain ⟨e0, e1, e2, e3, e4⟩ := abut5_index ℚ
    exact ⟨0, by simp, 1, by simp, by simp [e0, e1]⟩
  ⟨rfl, hfit, hspread,
    C6_five_particles_split_once (abut5 ℚ) window [0, 1, 2, 3, 4] rfl hfit hspread⟩

/-- C7. A particle whose bounding square crosses the root's vertical midline is in the root's
local list after it and any other particles have been inserted in any order, split or no split,
and `retrieve` returns it for every query particle. -/
theorem C7_midline_straddler_stays_in_root (mem : List (Particle F)) (bounds : Rectangle F)
    (ks : List Nat) (s : Nat) (hs : s ∈ ks)
    (hleft : (deref mem s).position.x - (deref mem s).radius ≤ bounds.x + bounds.width / 2)
    (hright : bounds.x + bounds.width / 2 ≤ (deref mem s).position.x + (deref mem s).radius) :
    s ∈ (build mem bounds ks).particles ∧
      ∀ q : Particle F, s ∈ (build mem bounds ks).retrieve [] q := by
  have h := build_kept mem bounds ks s hs (getIndex_straddle hleft hright)
  exact ⟨h, fun q => retrieve_local _ [] q s h⟩

/-- C7 at a concrete input: particle 1 of `demo5` sits on the vertical midline x = 600 of the
window, and the other four particles make the root split. -/
theorem C7_witness :
    1 ∈ [0, 1, 2, 3, 4] ∧
      (deref (demo5 ℚ) 1).position.x - (deref (demo5 ℚ) 1).radius ≤
        (window : Rectangle ℚ).x + (window : Rectangle ℚ).width / 2 ∧
      (window : Rectangle ℚ).x + (window : Rectangle ℚ).width / 2 ≤
        (deref (demo5 ℚ) 1).position.x + (deref (demo5 ℚ) 1).radius ∧
      1 ∈ (build (demo5 ℚ) window [0, 1, 2, 3, 4]).particles ∧
      ∀ q : Particle ℚ, 1 ∈ (build (demo5 ℚ) window [0, 1, 2, 3, 4]).retrieve [] q :=
  have hleft : (deref (demo5 ℚ) 1).position.x - (deref (demo5 ℚ) 1).radius ≤
      (window : Rectangle ℚ).x + (window : Rectangle ℚ).width / 2 := by
    norm_num [deref, demo5, window]
  have hright : (window : Rectangle ℚ).x + (window : Rectangle ℚ).width / 2 ≤
      (deref (demo5 ℚ) 1).position.x + (deref (demo5 ℚ) 1).radius := by
    norm_num [deref, demo5, window]
  ⟨by simp, hleft, hright,
    C7_midline_straddler_stays_in_root (demo5 ℚ) window [0, 1, 2, 3, 4] 1 (by simp) hleft hright⟩

/-- C9. `insert` and `retrieve` terminate: in a quadtree built by inserting any list of particle
pointers into an empty level-0 root, every node has level at most `MAX_LEVELS` = 8 and every
node with children has level below 8; the tree is at most 8 levels deep, which bounds the
recursion of `retrieve` (structural on the tree); and `insert` with its recursion depth limited
to 9 nested calls (levels 0 to 8), or to any larger number, returns, and returns the tree
`Quadtree.insert` computes. -/
theorem C9_recursion_depth_bounded (mem : List (Particle F)) (bounds : Rectangle F)
    (ks : List Nat) :
    (∀ n ∈ (build mem bounds ks).subtrees,
        n.level ≤ MAX_LEVELS ∧ (n.hasChildren = true → n.level < MAX_LEVELS)) ∧
      (build mem bounds ks).depth ≤ 8 ∧
      ∀ (k fuel : Nat), 9 ≤ fuel →
        insertFuel mem fuel (build mem bounds ks) k = some ((build mem bounds ks).insert mem k) := by
  obtain ⟨_, hlevel, _, _, hleveled⟩ := build_ok mem bounds ks
  obtain ⟨hd, hf⟩ := leveled_depth_fuel _ hleveled (by rw [hlevel])
  rw [hlevel] at hd hf
  refine ⟨leveled_subtrees _ hleveled, by omega, fun k fuel h9 => ?_⟩
  exact insertFuel_eq_insert mem _ k (by omega)

/-! ## What a collision pass keeps -/

theorem set_ids (mem : List (Particle F)) (i : Nat) (p : Particle F)
    (h : p.id = (deref mem i).id) : (mem.set i p).map (fun a => a.id) = mem.map fun a => a.id := by
  induction mem generalizing i with
  | nil => rfl
  | cons a l ih =>
    cases i with
    | zero =>
      simp only [deref, List.getD_cons_zero] at h
      simp [h]
    | succ i =>
      simp only [deref, List.getD_cons_succ] at h
      simp only [List.set_cons_succ, List.map_cons]
      rw [ih i (by simpa [deref] using h)]

theorem deref_id (mem : List (Particle F)) (k : Nat) :
    (deref mem k).id = (mem.map fun a => a.id).getD k 0 := by
  induction mem generalizing k with
  | nil => rfl
  | cons a l ih =>
    cases k with
    | zero => rfl
    | succ k => simpa [deref] using ih k

/-- The resolution writes positions and velocities only: the ids stay where they are. -/
theorem resolve_ids (mem : List (Particle F)) (i c : Nat) (dist minDist : F) :
    (resolve mem i c dist minDist).map (fun a => a.id) = mem.map fun a => a.id := by
  unfold resolve
  simp only
  rw [set_ids _ _ _ (by rfl), set_ids _ _ _ (by rfl), set_ids _ _ _ (by rfl),
    set_ids _ _ _ (by rfl)]

theorem pairStep_eq (sqrt : F → F) (i c : Nat) (st : PassState F) :
    pairStep sqrt i c st =
      if collides sqrt st.2 i c = true then
        (st.1 + 1, resolve st.2 i c (distance sqrt (deref st.2 i) (deref st.2 c))
          ((deref st.2 i).radius + (deref st.2 c).radius))
      else st := by
  unfold pairStep collides
  simp only [Bool.and_eq_true, decide_eq_true_eq]

theorem pairStep_ids (sqrt : F → F) (i c : Nat) (st : PassState F) :
    (pairStep sqrt i c st).2.map (fun a => a.id) = st.2.map fun a => a.id := by
  rw [pairStep_eq]
  split_ifs
  · exact resolve_ids st.2 i c _ _
  · rfl

theorem pairStep_of_not_collides (sqrt : F → F) (i c : Nat) (st : PassState F)
    (h : collides sqrt st.2 i c = false) : pairStep sqrt i c st = st := by
  rw [pairStep_eq]
  simp [h]

theorem candidateStep_ids (sqrt : F → F) (i c : Nat) (st : PassState F) :
    (candidateStep sqrt i st c).2.map (fun a => a.id) = st.2.map fun a => a.id := by
  unfold candidateStep
  split_ifs
  · rfl
  · exact pairStep_ids sqrt i c st

theorem candidateStep_noop (sqrt : F → F) (i c : Nat) (st : PassState F)
    (h : c ≠ i → collides sqrt st.2 i c = false) : candidateStep sqrt i st c = st := by
  unfold candidateStep
  split_ifs with hid
  · rfl
  · have hne : c ≠ i := by
      rintro rfl
      exact hid (le_refl _)
    exact pairStep_of_not_collides sqrt i c st (h hne)

theorem candidates_fold_noop (sqrt : F → F) (i : Nat) (cs : List Nat) (st : PassState F)
    (h : ∀ c ∈ cs, c ≠ i → collides sqrt st.2 i c = false) :
    cs.foldl (candidateStep sqrt i) st = st := by
  induction cs with
  | nil => rfl
  | cons c cs ih =>
    simp only [List.foldl_cons]
    rw [candidateStep_noop sqrt i c st (h c (by simp))]
    exact ih (fun x hx hne => h x (List.mem_cons_of_mem _ hx) hne)

theorem candidateStepLog_fst (sqrt : F → F) (i c : Nat) (st : PassState F × List (Nat × Nat)) :
    (candidateStepLog sqrt i st c).1 = candidateStep sqrt i st.1 c := by
  unfold candidateStepLog candidateStep
  split_ifs <;> rfl

theorem candidates_foldLog_fst (sqrt : F → F) (i : Nat) (cs : List Nat) :
    ∀ st : PassState F × List (Nat × Nat),
      (cs.foldl (candidateStepLog sqrt i) st).1 = cs.foldl (candidateStep sqrt i) st.1 := by
  induction cs with
  | nil => intro st; rfl
  | cons c cs ih =>
    intro st
    simp only [List.foldl_cons]
    rw [ih, candidateStepLog_fst]

/-- The pass with the log computes what `checkCollisionsQuadtree` computes. -/
theorem quadtreePass_fst (sqrt : F → F) (particles : List (Particle F)) (t : Quadtree F) :
    (quadtreePass sqrt particles t).1 = checkCollisionsQuadtree sqrt particles t := by
  unfold quadtreePass checkCollisionsQuadtree
  generalize List.range particles.length = l
  have key : ∀ (st : PassState F × List (Nat × Nat)),
      (l.foldl (fun st i => (t.retrieve [] (deref st.1.2 i)).foldl (candidateStepLog sqrt i) st)
        st).1 =
      l.foldl (fun st i => (t.retrieve [] (deref st.2 i)).foldl (candidateStep sqrt i) st)
        st.1 := by
    induction l with
    | nil => intro st; rfl
    | cons i l ih =>
      intro st
      simp only [List.foldl_cons]
      rw [ih, candidates_foldLog_fst]
  exact key _

/-- The candidates of `retrieve` are pointers stored in the tree, each at most as often as it
is stored. -/
theorem retrieve_count (t : Quadtree F) :
    ∀ (ret : List Nat) (q : Particle F) (x : Nat),
      (t.retrieve ret q).count x ≤ ret.count x + t.all.count x := by
  induction t with
  | leaf lv ps b => intro ret q x; simp [Quadtree.retrieve, Quadtree.all]
  | branch lv ps b n0 n1 n2 n3 ih0 ih1 ih2 ih3 =>
    intro ret q x
    have a0 := ih0 ret q x
    have a1 := ih1 ret q x
    have a2 := ih2 ret q x
    have a3 := ih3 ret q x
    have c0 := ih0 (ret ++ ps) q x
    have c1 := ih1 (n0.retrieve (ret ++ ps) q) q x
    have c2 := ih2 (n1.retrieve (n0.retrieve (ret ++ ps) q) q) q x
    have c3 := ih3 (n2.retrieve (n1.retrieve (n0.retrieve (ret ++ ps) q) q) q) q x
    simp only [List.count_append] at c0
    simp only [Quadtree.retrieve, Quadtree.all, List.count_append]
    split_ifs <;> (try simp only [List.count_append]) <;> omega

/-! ## The narrow phase on two particles: C3 -/

theorem brute_two (sqrt : F → F) (A B : Particle F) :
    checkCollisionsBruteForce sqrt [A, B] = pairStep sqrt 0 1 (0, [A, B]) := rfl

theorem resolve_two (A B : Particle F) (d m : F) :
    resolve [A, B] 0 1 d m =
      [{ A with
          position :=
            ⟨A.position.x + (A.position.x - B.position.x) / d *
                ((m - d) / 2),
              A.position.y + (A.position.y - B.position.y) / d *
                ((m - d) / 2)⟩
          velocity := B.velocity },
       { B with
          position :=
            ⟨B.position.x - (A.position.x - B.position.x) / d *
                ((m - d) / 2),
              B.position.y - (A.position.y - B.position.y) / d *
                ((m - d) / 2)⟩
          velocity := A.velocity }] := rfl

theorem distance_self_pos {sqrt : F → F} (hs : IsSqrt sqrt) (A B : Particle F)
    (h : A.position = B.position) : distance sqrt A B = 0 := by
  unfold distance
  simp only [h, sub_self, mul_zero, add_zero]
  exact hs.eq_of_sq (le_refl 0) (mul_zero 0)

theorem collides_two (sqrt : F → F) (A B : Particle F) :
    collides sqrt [A, B] 0 1 =
      (decide (distance sqrt A B < A.radius + B.radius) && decide (distance sqrt A B > 0)) :=
  rfl

/-- After the positional correction the centres are `minDist` apart. -/
theorem distance_after_resolve {sqrt : F → F} (hs : IsSqrt sqrt) (A B : Particle F)
    (hpos : 0 < distance sqrt A B) (hlt : distance sqrt A B < A.radius + B.radius)
    (A1 B1 : Particle F)
    (hA : A1.position =
      ⟨A.position.x + (A.position.x - B.position.x) / distance sqrt A B *
          ((A.radius + B.radius - distance sqrt A B) / 2),
        A.position.y + (A.position.y - B.position.y) / distance sqrt A B *
          ((A.radius + B.radius - distance sqrt A B) / 2)⟩)
    (hB : B1.position =
      ⟨B.position.x - (A.position.x - B.position.x) / distance sqrt A B *
          ((A.radius + B.radius - distance sqrt A B) / 2),
        B.position.y - (A.position.y - B.position.y) / distance sqrt A B *
          ((A.radius + B.radius - distance sqrt A B) / 2)⟩) :
    distance sqrt A1 B1 = A.radius + B.radius := by
  have hd2 : distance sqrt A B * distance sqrt A B =
      (A.position.x - B.position.x) * (A.position.x - B.position.x) +
        (A.position.y - B.position.y) * (A.position.y - B.position.y) :=
    (hs _ (add_nonneg (mul_self_nonneg _) (mul_self_nonneg _))).2
  generalize distance sqrt A B = d at hpos hlt hA hB hd2
  have hd : d ≠ 0 := ne_of_gt hpos
  unfold distance
  simp only [hA, hB]
  apply hs.eq_of_sq (le_of_lt (lt_trans hpos hlt))
  have e1 : ∀ a b : F, a + (a - b) / d * ((A.radius + B.radius - d) / 2) -
      (b - (a - b) / d * ((A.radius + B.radius - d) / 2)) =
      (a - b) * (A.radius + B.radius) / d := by
    intro a b
    field_simp
    ring
  rw [e1, e1]
  field_simp
  rw [hd2]
  ring

/-- C3. For particles A, B with centre distance d, 0 < d < radiusA + radiusB, one pass of
`checkCollisionsBruteForce` over [A, B] returns 1, leaves the centres exactly
radiusA + radiusB apart and exchanges the velocity vectors (radii and ids are kept); and for
A = (100,100), r = 10, v = (1,0), B = (115,100), r = 10, v = (-1,0) the result is A at
(97.5,100) with v = (-1,0) and B at (117.5,100) with v = (1,0). -/
theorem C3_pair_resolution {sqrt : F → F} (hs : IsSqrt sqrt) :
    (∀ A B : Particle F, 0 < distance sqrt A B → distance sqrt A B < A.radius + B.radius →
      ∃ A1 B1 : Particle F,
        checkCollisionsBruteForce sqrt [A, B] = (1, [A1, B1]) ∧
        distance sqrt A1 B1 = A.radius + B.radius ∧
        A1.velocity = B.velocity ∧ B1.velocity = A.velocity ∧
        A1.radius = A.radius ∧ B1.radius = B.radius ∧ A1.id = A.id ∧ B1.id = B.id) ∧
    ∀ ia ib : Int,
      checkCollisionsBruteForce sqrt
          [⟨⟨100, 100⟩, ⟨1, 0⟩, 10, ia⟩, ⟨⟨115, 100⟩, ⟨-1, 0⟩, 10, ib⟩] =
        (1, [⟨⟨195 / 2, 100⟩, ⟨-1, 0⟩, 10, ia⟩, ⟨⟨235 / 2, 100⟩, ⟨1, 0⟩, 10, ib⟩]) := by
  constructor
  · intro A B hpos hlt
    have hc : collides sqrt [A, B] 0 1 = true := by
      rw [collides_two]
      simp [hpos, hlt]
    refine ⟨{ A with
        position :=
          ⟨A.position.x + (A.position.x - B.position.x) / distance sqrt A B *
              ((A.radius + B.radius - distance sqrt A B) / 2),
            A.position.y + (A.position.y - B.position.y) / distance sqrt A B *
              ((A.radius + B.radius - distance sqrt A B) / 2)⟩
        velocity := B.velocity },
      { B with
        position :=
          ⟨B.position.x - (A.position.x - B.position.x) / distance sqrt A B *
              ((A.radius + B.radius - distance sqrt A B) / 2),
            B.position.y - (A.position.y - B.position.y) / distance sqrt A B *
              ((A.radius + B.radius - distance sqrt A B) / 2)⟩
        velocity := A.velocity }, ?_, ?_, rfl, rfl, rfl, rfl, rfl, rfl⟩
    · rw [brute_two, pairStep_eq]
      simp only [hc, ite_true, zero_add, resolve_two, deref, List.getD_cons_zero,
        List.getD_cons_succ]
    · exact distance_after_resolve hs A B hpos hlt _ _ rfl rfl
  · intro ia ib
    have hd : distance sqrt (⟨⟨100, 100⟩, ⟨1, 0⟩, 10, ia⟩ : Particle F)
        ⟨⟨115, 100⟩, ⟨-1, 0⟩, 10, ib⟩ = 15 := by
      simp only [distance]
      exact hs.eq_of_sq (by norm_num) (by norm_num)
    have hc : collides sqrt [(⟨⟨100, 100⟩, ⟨1, 0⟩, 10, ia⟩ : Particle F),
        ⟨⟨115, 100⟩, ⟨-1, 0⟩, 10, ib⟩] 0 1 = true := by
      rw [collides_two, hd]
      norm_num
    rw [brute_two, pairStep_eq]
    simp only [hc, ite_true, zero_add, resolve_two, deref, List.getD_cons_zero,
      List.getD_cons_succ, hd]
    norm_num

theorem pair_distance {sqrt : F → F} (hs : IsSqrt sqrt) :
    distance sqrt (pairA F) (pairB F) = 15 := by
  simp only [distance, pairA, pairB]
  exact hs.eq_of_sq (by norm_num) (by norm_num)

/-- C3 at a concrete input over the reals: the two particles of the claim, 15 apart. -/
theorem C3_witness :
    IsSqrt Real.sqrt ∧ 0 < distance Real.sqrt (pairA ℝ) (pairB ℝ) ∧
      distance Real.sqrt (pairA ℝ) (pairB ℝ) < (pairA ℝ).radius + (pairB ℝ).radius ∧
      ∃ A1 B1 : Particle ℝ,
        checkCollisionsBruteForce Real.sqrt [pairA ℝ, pairB ℝ] = (1, [A1, B1]) ∧
        distance Real.sqrt A1 B1 = (pairA ℝ).radius + (pairB ℝ).radius ∧
        A1.velocity = (pairB ℝ).velocity ∧ B1.velocity = (pairA ℝ).velocity ∧
        A1.radius = (pairA ℝ).radius ∧ B1.radius = (pairB ℝ).radius ∧
        A1.id = (pairA ℝ).id ∧ B1.id = (pairB ℝ).id :=
  have h1 : 0 < distance Real.sqrt (pairA ℝ) (pairB ℝ) := by
    rw [pair_distance isSqrt_real]; norm_num
  have h2 : distance Real.sqrt (pairA ℝ) (pairB ℝ) < (pairA ℝ).radius + (pairB ℝ).radius := by
    rw [pair_distance isSqrt_real]; norm_num [pairA, pairB]
  ⟨isSqrt_real, h1, h2, (C3_pair_resolution isSqrt_real).1 (pairA ℝ) (pairB ℝ) h1 h2⟩

/-! ## Coincident particles: C4 -/

theorem collides_coincident {sqrt : F → F} (hs : IsSqrt sqrt) (mem : List (Particle F))
    (i c : Nat) (h : (deref mem i).position = (deref mem c).position) :
    collides sqrt mem i c = false := by
  unfold collides
  simp only [distance_self_pos hs _ _ h, gt_iff_lt, lt_self_iff_false, decide_False,
    Bool.and_false]

theorem quadtree_two (sqrt : F → F) (A B : Particle F) (bounds : Rectangle F) :
    checkCollisionsQuadtree sqrt [A, B] (build [A, B] bounds [0, 1]) =
      [0, 1].foldl (candidateStep sqrt 1)
        ([0, 1].foldl (candidateStep sqrt 0) (0, [A, B])) := by
  rw [build_small _ _ _ (by decide)]
  rfl

/-- C4. Two particles at the same position, any radii, velocities and ids: both
`checkCollisionsBruteForce` and `checkCollisionsQuadtree` (on the quadtree built from the two)
return 0 and leave the vector as it was; the guard `dist < minDist && dist > 0`, inside which
alone the divisions by `dist` stand, is false for the pair in either order. -/
theorem C4_coincident_pair_skipped {sqrt : F → F} (hs : IsSqrt sqrt) (A B : Particle F)
    (bounds : Rectangle F) (hpos : A.position = B.position) :
    checkCollisionsBruteForce sqrt [A, B] = (0, [A, B]) ∧
      checkCollisionsQuadtree sqrt [A, B] (build [A, B] bounds [0, 1]) = (0, [A, B]) ∧
      collides sqrt [A, B] 0 1 = false ∧ collides sqrt [A, B] 1 0 = false := by
  have h01 : collides sqrt [A, B] 0 1 = false := collides_coincident hs _ 0 1 hpos
  have h10 : collides sqrt [A, B] 1 0 = false := collides_coincident hs _ 1 0 hpos.symm
  refine ⟨?_, ?_, h01, h10⟩
  · rw [brute_two]
    exact pairStep_of_not_collides sqrt 0 1 _ h01
  · rw [quadtree_two]
    have e0 : [0, 1].foldl (candidateStep sqrt 0) (0, [A, B]) = (0, [A, B]) := by
      apply candidates_fold_noop
      intro c hc hne
      have : c = 1 := by simp at hc; omega
      subst this
      exact h01
    rw [e0]
    apply candidates_fold_noop
    intro c hc hne
    have : c = 0 := by simp at hc; omega
    subst this
    exact h10

/-- C4 at a concrete input over the reals: two copies of a position with different radii. -/
theorem C4_witness :
    IsSqrt Real.sqrt ∧
      (⟨⟨3, 4⟩, ⟨1, 0⟩, 10, 0⟩ : Particle ℝ).position =
        (⟨⟨3, 4⟩, ⟨0, 2⟩, 7, 1⟩ : Particle ℝ).position ∧
      checkCollisionsBruteForce Real.sqrt [⟨⟨3, 4⟩, ⟨1, 0⟩, 10, 0⟩, ⟨⟨3, 4⟩, ⟨0, 2⟩, 7, 1⟩] =
        (0, [⟨⟨3, 4⟩, ⟨1, 0⟩, 10, 0⟩, ⟨⟨3, 4⟩, ⟨0, 2⟩, 7, 1⟩]) ∧
      checkCollisionsQuadtree Real.sqrt [⟨⟨3, 4⟩, ⟨1, 0⟩, 10, 0⟩, ⟨⟨3, 4⟩, ⟨0, 2⟩, 7, 1⟩]
          (build [⟨⟨3, 4⟩, ⟨1, 0⟩, 10, 0⟩, ⟨⟨3, 4⟩, ⟨0, 2⟩, 7, 1⟩] window [0, 1]) =
        (0, [⟨⟨3, 4⟩, ⟨1, 0⟩, 10, 0⟩, ⟨⟨3, 4⟩, ⟨0, 2⟩, 7, 1⟩]) ∧
      collides Real.sqrt [⟨⟨3, 4⟩, ⟨1, 0⟩, 10, 0⟩, ⟨⟨3, 4⟩, ⟨0, 2⟩, 7, 1⟩] 0 1 = false ∧
      collides Real.sqrt [⟨⟨3, 4⟩, ⟨1, 0⟩, 10, 0⟩, ⟨⟨3, 4⟩, ⟨0, 2⟩, 7, 1⟩] 1 0 = false :=
  ⟨isSqrt_real, rfl,
    C4_coincident_pair_skipped isSqrt_real ⟨⟨3, 4⟩, ⟨1, 0⟩, 10, 0⟩ ⟨⟨3, 4⟩, ⟨0, 2⟩, 7, 1⟩
      window rfl⟩

/-! ## Reflection at the walls: C5 -/

/-- C5. `Particle::update` adds the velocity to the position and then, on each axis by itself:
if position - radius < 0 the position becomes the radius and the velocity component is negated;
otherwise if position + radius exceeds the extent the position becomes extent - radius and the
component is negated; otherwise both stay as stepped.  Radius and id are kept.  The particle at
(5, 300), radius 8, velocity (-3, 0) in the 1200 x 800 domain ends at x = 8 with velocity.x = 3,
y = 300, velocity.y = 0. -/
theorem C5_update_reflects (p : Particle F) (width height : F) :
    ((p.position.x + p.velocity.x - p.radius < 0 →
        (p.update width height).position.x = p.radius ∧
        (p.update width height).velocity.x = -p.velocity.x) ∧
      (¬ p.position.x + p.velocity.x - p.radius < 0 →
        p.position.x + p.velocity.x + p.radius > width →
        (p.update width height).position.x = width - p.radius ∧
        (p.update width height).velocity.x = -p.velocity.x) ∧
      (¬ p.position.x + p.velocity.x - p.radius < 0 →
        ¬ p.position.x + p.velocity.x + p.radius > width →
        (p.update width height).position.x = p.position.x + p.velocity.x ∧
        (p.update width height).velocity.x = p.velocity.x)) ∧
    ((p.position.y + p.velocity.y - p.radius < 0 →
        (p.update width height).position.y = p.radius ∧
        (p.update width height).velocity.y = -p.velocity.y) ∧
      (¬ p.position.y + p.velocity.y - p.radius < 0 →
        p.position.y + p.velocity.y + p.radius > height →
        (p.update width height).position.y = height - p.radius ∧
        (p.update width height).velocity.y = -p.velocity.y) ∧
      (¬ p.position.y + p.velocity.y - p.radius < 0 →
        ¬ p.position.y + p.velocity.y + p.radius > height →
        (p.update width height).position.y = p.position.y + p.velocity.y ∧
        (p.update width height).velocity.y = p.velocity.y)) ∧
    (p.update width height).radius = p.radius ∧ (p.update width height).id = p.id ∧
    (wallP F).update 1200 800 = ⟨⟨8, 300⟩, ⟨3, 0⟩, 8, 0⟩ := by
  refine ⟨⟨?_, ?_, ?_⟩, ⟨?_, ?_, ?_⟩, rfl, rfl, ?_⟩
  · intro h; simp [Particle.update, h]
  · intro h1 h2; simp [Particle.update, h1, h2]
  · intro h1 h2; simp [Particle.update, h1, h2]
  · intro h; simp [Particle.update, h]
  · intro h1 h2; simp [Particle.update, h1, h2]
  · intro h1 h2; simp [Particle.update, h1, h2]
  · simp only [Particle.update, wallP]
    norm_num

/-- C5 at a concrete input: the wall example over the rationals, through the first case of the
x axis and the last case of the y axis. -/
theorem C5_witness :
    (wallP ℚ).position.x + (wallP ℚ).velocity.x - (wallP ℚ).radius < 0 ∧
      ((wallP ℚ).update 1200 800).position.x = 8 ∧
      ((wallP ℚ).update 1200 800).velocity.x = 3 ∧
      ((wallP ℚ).update 1200 800).position.y = 300 ∧
      ((wallP ℚ).update 1200 800).velocity.y = 0 :=
  have hx : (wallP ℚ).position.x + (wallP ℚ).velocity.x - (wallP ℚ).radius < 0 := by
    norm_num [wallP]
  have hy1 : ¬ (wallP ℚ).position.y + (wallP ℚ).velocity.y - (wallP ℚ).radius < 0 := by
    norm_num [wallP]
  have hy2 : ¬ (wallP ℚ).position.y + (wallP ℚ).velocity.y + (wallP ℚ).radius > 800 := by
    norm_num [wallP]
  have h := C5_update_reflects (wallP ℚ) 1200 800
  ⟨hx, by rw [(h.1.1 hx).1]; rfl, by rw [(h.1.1 hx).2]; norm_num [wallP],
    by rw [(h.2.1.2.2 hy1 hy2).1]; norm_num [wallP],
    by rw [(h.2.1.2.2 hy1 hy2).2]; rfl⟩

/-! ## The pairs a quadtree pass tests: C10 -/

/-- The inner loop over the candidates `cs` of the query `i`: it keeps the ids and logs exactly
the candidates whose id is above the query's. -/
theorem candidates_fold_log (sqrt : F → F) (ids : List Int) (i : Nat) (cs : List Nat) :
    ∀ st : PassState F × List (Nat × Nat), (st.1.2.map fun a => a.id) = ids →
      ((cs.foldl (candidateStepLog sqrt i) st).1.2.map fun a => a.id) = ids ∧
      (cs.foldl (candidateStepLog sqrt i) st).2 =
        st.2 ++ (cs.filter fun c => decide (ids.getD i 0 < ids.getD c 0)).map fun c => (i, c) := by
  induction cs with
  | nil => intro st h; exact ⟨h, by simp⟩
  | cons c cs ih =>
    intro st h
    simp only [List.foldl_cons]
    have hids : ((candidateStepLog sqrt i st c).1.2.map fun a => a.id) = ids := by
      rw [candidateStepLog_fst]
      exact (candidateStep_ids sqrt i c st.1).trans h
    obtain ⟨i1, i2⟩ := ih (candidateStepLog sqrt i st c) hids
    refine ⟨i1, ?_⟩
    rw [i2]
    unfold candidateStepLog
    rw [deref_id, deref_id, h]
    by_cases hlt : ids.getD i 0 < ids.getD c 0
    · rw [if_neg (not_le.mpr hlt)]
      simp only [List.filter_cons, hlt, decide_True, if_true, List.map_cons, List.append_assoc,
        List.cons_append, List.nil_append]
    · rw [if_pos (not_lt.mp hlt)]
      simp only [List.filter_cons, hlt, decide_False, Bool.false_eq_true, if_false]

theorem retrieve_nodup (t : Quadtree F) (q : Particle F) (h : t.all.Nodup) :
    (t.retrieve [] q).Nodup := by
  rw [List.nodup_iff_count_le_one] at h ⊢
  intro x
  have := retrieve_count t [] q x
  have := h x
  simp only [List.count_nil] at *
  omega

/-- The log after the queries `0 .. m-1`: the ids are kept, every logged pair has its query
below `m` and the id of the query below the id of the candidate, and no unordered pair is
logged twice. -/
theorem queries_fold_log (sqrt : F → F) (particles : List (Particle F)) (t : Quadtree F)
    (ht : t.all.Nodup) (m : Nat) :
    let st := (List.range m).foldl
      (fun st i => (t.retrieve [] (deref st.1.2 i)).foldl (candidateStepLog sqrt i) st)
      ((0, particles), [])
    (st.1.2.map fun a => a.id) = (particles.map fun a => a.id) ∧
      (∀ p ∈ st.2, p.1 < m ∧
        (particles.map fun a => a.id).getD p.1 0 < (particles.map fun a => a.id).getD p.2 0) ∧
      (st.2.map Sym2.mk).Nodup := by
  induction m with
  | zero => simp
  | succ m ih =>
    simp only [List.range_succ, List.foldl_append, List.foldl_cons, List.foldl_nil]
    simp only at ih
    generalize (List.range m).foldl
      (fun st i => (t.retrieve [] (deref st.1.2 i)).foldl (candidateStepLog sqrt i) st)
      ((0, particles), []) = st at ih ⊢
    obtain ⟨h1, h2, h3⟩ := ih
    have hcs := retrieve_nodup t (deref st.1.2 m) ht
    generalize t.retrieve [] (deref st.1.2 m) = cs at hcs ⊢
    obtain ⟨i1, i2⟩ := candidates_fold_log sqrt _ m cs st h1
    refine ⟨i1, ?_, ?_⟩
    · intro p hp
      rw [i2] at hp
      rcases List.mem_append.mp hp with hp | hp
      · exact ⟨Nat.lt_succ_of_lt (h2 p hp).1, (h2 p hp).2⟩
      · simp only [List.mem_map, List.mem_filter, decide_eq_true_eq] at hp
        obtain ⟨c, ⟨_, hlt⟩, rfl⟩ := hp
        exact ⟨Nat.lt_succ_self m, hlt⟩
    · rw [i2, List.map_append]
      refine List.Nodup.append h3 ?_ ?_
      · rw [List.map_map]
        refine List.Nodup.map_on ?_ (hcs.filter _)
        intro x _ y _ hxy
        simp only [Function.comp_apply, Sym2.eq_iff, true_and] at hxy
        rcases hxy with h | ⟨h, h1⟩
        · exact h
        · exact h1.trans h
      · intro z hz1 hz2
        simp only [List.mem_map, List.mem_filter, decide_eq_true_eq] at hz1 hz2
        obtain ⟨p, hp, rfl⟩ := hz1
        obtain ⟨p1, ⟨c, ⟨_, hlt⟩, rfl⟩, he⟩ := hz2
        obtain ⟨hpm, hpid⟩ := h2 p hp
        rcases p with ⟨a, b⟩
        simp only [Sym2.eq_iff] at he
        rcases he with ⟨rfl, _⟩ | ⟨rfl, rfl⟩
        · exact absurd hpm (lt_irrefl _)
        · exact absurd hpid (not_lt.mpr (le_of_lt hlt))

/-- C10. One pass of `checkCollisionsQuadtree` over the quadtree built from the collection
applies the narrow phase to each unordered pair of particles at most once: the pass with the
log of tested pairs computes what `checkCollisionsQuadtree` computes, and among the logged
(query, candidate) pairs, those that pass the filter on the ids, no unordered pair occurs
twice.  The ids need not even be distinct. -/
theorem C10_each_pair_tested_once (sqrt : F → F) (particles : List (Particle F))
    (bounds : Rectangle F) :
    (quadtreePass sqrt particles (build particles bounds (List.range particles.length))).1 =
        checkCollisionsQuadtree sqrt particles
          (build particles bounds (List.range particles.length)) ∧
      ((testedPairs sqrt particles
        (build particles bounds (List.range particles.length))).map Sym2.mk).Nodup := by
  refine ⟨quadtreePass_fst sqrt particles _, ?_⟩
  have ht : (build particles bounds (List.range particles.length)).all.Nodup :=
    (build_ok particles bounds _).1.nodup_iff.mpr (List.nodup_range _)
  exact (queries_fold_log sqrt particles _ ht particles.length).2.2

/-! ## Evaluating a pass step by step -/

theorem candidateStep_skip (sqrt : F → F) (i c : Nat) (st : PassState F)
    (h : (deref st.2 c).id ≤ (deref st.2 i).id) : candidateStep sqrt i st c = st := by
  unfold candidateStep
  rw [if_pos h]

theorem candidateStep_test (sqrt : F → F) (i c : Nat) (st : PassState F)
    (h : (deref st.2 i).id < (deref st.2 c).id) :
    candidateStep sqrt i st c = pairStep sqrt i c st := by
  unfold candidateStep
  rw [if_neg (not_le.mpr h)]

theorem retrieve_mem_all (t : Quadtree F) (q : Particle F) (x : Nat)
    (h : x ∈ t.retrieve [] q) : x ∈ t.all := by
  have h1 := retrieve_count t [] q x
  have h2 : 0 < (t.retrieve [] q).count x := List.count_pos_iff.mpr h
  simp only [List.count_nil, zero_add] at h1
  exact List.count_pos_iff.mp (lt_of_lt_of_le h2 h1)

/-- With the ids equal to the positions in the vector, the filter on the ids lets through the
candidates above the query and no others. -/
theorem candidates_fold_above (sqrt : F → F) (ids : List Int) (i : Nat) (cs : List Nat)
    (hcs : ∀ c ∈ cs, ids.getD c 0 > ids.getD i 0) :
    ∀ st : PassState F, (st.2.map fun a => a.id) = ids →
      cs.foldl (candidateStep sqrt i) st = cs.foldl (fun st j => pairStep sqrt i j st) st := by
  induction cs with
  | nil => intro st _; rfl
  | cons c cs ih =>
    intro st h
    simp only [List.foldl_cons]
    have hlt : (deref st.2 i).id < (deref st.2 c).id := by
      rw [deref_id, deref_id, h]
      exact hcs c (by simp)
    rw [candidateStep_test sqrt i c st hlt]
    exact ih (fun x hx => hcs x (List.mem_cons_of_mem _ hx)) _
      ((pairStep_ids sqrt i c st).trans h)

theorem candidates_fold_below (sqrt : F → F) (ids : List Int) (i : Nat) (cs : List Nat)
    (hcs : ∀ c ∈ cs, ids.getD c 0 ≤ ids.getD i 0) (st : PassState F)
    (h : (st.2.map fun a => a.id) = ids) : cs.foldl (candidateStep sqrt i) st = st := by
  induction cs with
  | nil => rfl
  | cons c cs ih =>
    simp only [List.foldl_cons]
    have hle : (deref st.2 c).id ≤ (deref st.2 i).id := by
      rw [deref_id, deref_id, h]
      exact hcs c (by simp)
    rw [candidateStep_skip sqrt i c st hle]
    exact ih (fun x hx => hcs x (List.mem_cons_of_mem _ hx))

theorem pairs_fold_ids (sqrt : F → F) (i : Nat) (js : List Nat) :
    ∀ st : PassState F,
      ((js.foldl (fun st j => pairStep sqrt i j st) st).2.map fun a => a.id) =
        st.2.map fun a => a.id := by
  induction js with
  | nil => intro st; rfl
  | cons j js ih =>
    intro st
    simp only [List.foldl_cons]
    rw [ih, pairStep_ids]

/-- While the root has not split, `retrieve` returns the whole collection in order, and with the
ids equal to the positions in the vector the indexed pass is the exhaustive pass. -/
theorem quadtree_eq_brute_small (sqrt : F → F) (particles : List (Particle F))
    (bounds : Rectangle F) (hn : particles.length ≤ MAX_PARTICLES)
    (hids : ∀ i < particles.length, (deref particles i).id = i) :
    checkCollisionsQuadtree sqrt particles
        (build particles bounds (List.range particles.length)) =
      checkCollisionsBruteForce sqrt particles := by
  rw [build_small particles bounds _ (by simpa using hn)]
  unfold checkCollisionsQuadtree checkCollisionsBruteForce
  simp only [Quadtree.retrieve, List.nil_append]
  have hid : ∀ k < particles.length, (particles.map fun a => a.id).getD k 0 = (k : Int) := by
    intro k hk
    rw [← deref_id]
    exact hids k hk
  have key : ∀ is : List Nat, (∀ i ∈ is, i < particles.length) →
      ∀ st : PassState F, (st.2.map fun a => a.id) = (particles.map fun a => a.id) →
      is.foldl (fun st i =>
        (List.range particles.length).foldl (candidateStep sqrt i) st) st =
      is.foldl (fun st i =>
        (List.range' (i + 1) (particles.length - (i + 1))).foldl
          (fun st j => pairStep sqrt i j st) st) st := by
    intro is
    induction is with
    | nil => intro _ st _; rfl
    | cons i is ih =>
      intro his st hst
      have hi : i < particles.length := his i (by simp)
      simp only [List.foldl_cons]
      have hsplit : List.range particles.length =
          List.range' 0 (i + 1) ++ List.range' (i + 1) (particles.length - (i + 1)) := by
        have := List.range'_append_1 0 (i + 1) (particles.length - (i + 1))
        rw [Nat.zero_add] at this
        rw [List.range_eq_range', this]
        congr 1
        omega
      have e : (List.range particles.length).foldl (candidateStep sqrt i) st =
          (List.range' (i + 1) (particles.length - (i + 1))).foldl
            (fun st j => pairStep sqrt i j st) st := by
        rw [hsplit, List.foldl_append,
          candidates_fold_below sqrt _ i _ (fun c hc => ?_) st hst,
          candidates_fold_above sqrt _ i _ (fun c hc => ?_) st hst]
        · rw [List.mem_range'_1] at hc
          rw [hid c (by omega), hid i hi]
          exact_mod_cast (show i < c by omega)
        · rw [List.mem_range'_1] at hc
          rw [hid c (by omega), hid i hi]
          exact_mod_cast (show c ≤ i by omega)
      rw [e]
      exact ih (fun x hx => his x (List.mem_cons_of_mem _ hx)) _
        ((pairs_fold_ids sqrt i _ st).trans hst)
  exact key _ (fun i hi => List.mem_range.mp hi) _ rfl

/-- C12. For rectangles of non-negative width and height, `intersects` is true exactly when the
closed intervals [x, x + width] have a common point and the closed intervals [y, y + height]
have a common point; so rectangles that abut along a vertical or a horizontal edge intersect;
and `intersects` is symmetric. -/
theorem C12_intersects_closed_overlap (a b : Rectangle F) (haw : 0 ≤ a.width)
    (hah : 0 ≤ a.height) (hbw : 0 ≤ b.width) (hbh : 0 ≤ b.height) :
    (a.intersects b = true ↔
      (∃ px, a.x ≤ px ∧ px ≤ a.x + a.width ∧ b.x ≤ px ∧ px ≤ b.x + b.width) ∧
      (∃ py, a.y ≤ py ∧ py ≤ a.y + a.height ∧ b.y ≤ py ∧ py ≤ b.y + b.height)) ∧
    (b.x = a.x + a.width →
      (∃ py, a.y ≤ py ∧ py ≤ a.y + a.height ∧ b.y ≤ py ∧ py ≤ b.y + b.height) →
      a.intersects b = true) ∧
    (b.y = a.y + a.height →
      (∃ px, a.x ≤ px ∧ px ≤ a.x + a.width ∧ b.x ≤ px ∧ px ≤ b.x + b.width) →
      a.intersects b = true) ∧
    a.intersects b = b.intersects a := by
  have key : a.intersects b = true ↔
      (∃ px, a.x ≤ px ∧ px ≤ a.x + a.width ∧ b.x ≤ px ∧ px ≤ b.x + b.width) ∧
      (∃ py, a.y ≤ py ∧ py ≤ a.y + a.height ∧ b.y ≤ py ∧ py ≤ b.y + b.height) := by
    simp only [Rectangle.intersects, Bool.not_eq_true', Bool.or_eq_false_iff,
      decide_eq_false_iff_not, not_lt, gt_iff_lt]
    constructor
    · rintro ⟨⟨⟨h1, h2⟩, h3⟩, h4⟩
      refine ⟨⟨max a.x b.x, le_max_left _ _, ?_, le_max_right _ _, ?_⟩,
        ⟨max a.y b.y, le_max_left _ _, ?_, le_max_right _ _, ?_⟩⟩
      · exact max_le (by linarith) h1
      · exact max_le h2 (by linarith)
      · exact max_le (by linarith) h3
      · exact max_le h4 (by linarith)
    · rintro ⟨⟨px, x1, x2, x3, x4⟩, ⟨py, y1, y2, y3, y4⟩⟩
      exact ⟨⟨⟨by linarith, by linarith⟩, by linarith⟩, by linarith⟩
  refine ⟨key, ?_, ?_, ?_⟩
  · intro hx hy
    exact key.mpr ⟨⟨b.x, by linarith, by linarith, le_refl _, by linarith⟩, hy⟩
  · intro hy hx
    exact key.mpr ⟨hx, ⟨b.y, by linarith, by linarith, le_refl _, by linarith⟩⟩
  · simp only [Rectangle.intersects, gt_iff_lt]
    rw [Bool.eq_iff_iff]
    simp only [Bool.not_eq_true', Bool.or_eq_false_iff, decide_eq_false_iff_not, not_lt]
    constructor <;> rintro ⟨⟨⟨h1, h2⟩, h3⟩, h4⟩ <;> exact ⟨⟨⟨h2, h1⟩, h4⟩, h3⟩

/-- C12 at a concrete input: the squares of particles 0 and 1 of `abut5`, which share the edge
y = 400. -/
theorem C12_witness :
    0 ≤ (aabb (deref (abut5 ℚ) 0)).width ∧ 0 ≤ (aabb (deref (abut5 ℚ) 0)).height ∧
      0 ≤ (aabb (deref (abut5 ℚ) 1)).width ∧ 0 ≤ (aabb (deref (abut5 ℚ) 1)).height ∧
      (aabb (deref (abut5 ℚ) 1)).y =
        (aabb (deref (abut5 ℚ) 0)).y + (aabb (deref (abut5 ℚ) 0)).height ∧
      (aabb (deref (abut5 ℚ) 0)).intersects (aabb (deref (abut5 ℚ) 1)) = true ∧
      (aabb (deref (abut5 ℚ) 0)).intersects (aabb (deref (abut5 ℚ) 1)) =
        (aabb (deref (abut5 ℚ) 1)).intersects (aabb (deref (abut5 ℚ) 0)) :=
  have h1 : 0 ≤ (aabb (deref (abut5 ℚ) 0)).width := by norm_num [aabb, deref, abut5]
  have h2 : 0 ≤ (aabb (deref (abut5 ℚ) 0)).height := by norm_num [aabb, deref, abut5]
  have h3 : 0 ≤ (aabb (deref (abut5 ℚ) 1)).width := by norm_num [aabb, deref, abut5]
  have h4 : 0 ≤ (aabb (deref (abut5 ℚ) 1)).height := by norm_num [aabb, deref, abut5]
  have hy : (aabb (deref (abut5 ℚ) 1)).y =
      (aabb (deref (abut5 ℚ) 0)).y + (aabb (deref (abut5 ℚ) 0)).height := by
    norm_num [aabb, deref, abut5]
  have hx : ∃ px, (aabb (deref (abut5 ℚ) 0)).x ≤ px ∧
      px ≤ (aabb (deref (abut5 ℚ) 0)).x + (aabb (deref (abut5 ℚ) 0)).width ∧
      (aabb (deref (abut5 ℚ) 1)).x ≤ px ∧
      px ≤ (aabb (deref (abut5 ℚ) 1)).x + (aabb (deref (abut5 ℚ) 1)).width :=
    ⟨100, by norm_num [aabb, deref, abut5], by norm_num [aabb, deref, abut5],
      by norm_num [aabb, deref, abut5], by norm_num [aabb, deref, abut5]⟩
  have h := C12_intersects_closed_overlap (aabb (deref (abut5 ℚ) 0)) (aabb (deref (abut5 ℚ) 1))
    h1 h2 h3 h4
  ⟨h1, h2, h3, h4, hy, h.2.2.1 hy hx, h.2.2.2⟩

/-! ## The circle stays inside the domain: C19 -/

theorem all_eq_flatten (t : Quadtree F) :
    t.all = (t.subtrees.map Quadtree.particles).flatten := by
  induction t with
  | leaf lv ps b => simp [Quadtree.all, Quadtree.subtrees, Quadtree.particles]
  | branch lv ps b n0 n1 n2 n3 ih0 ih1 ih2 ih3 =>
    simp [Quadtree.all, Quadtree.subtrees, Quadtree.particles, ih0, ih1, ih2, ih3]

theorem placed_subtrees (mem : List (Particle F)) (t : Quadtree F) :
    Placed mem t → ∀ n ∈ t.subtrees, Placed mem n := by
  induction t with
  | leaf lv ps b =>
    intro h n hn
    simp only [Quadtree.subtrees, List.mem_singleton] at hn
    subst hn
    exact h
  | branch lv ps b n0 n1 n2 n3 ih0 ih1 ih2 ih3 =>
    intro h n hn
    simp only [Quadtree.subtrees, List.mem_cons, List.mem_append] at hn
    have h' := h
    simp only [Placed] at h'
    obtain ⟨_, _, _, _, _, q0, q1, q2, q3⟩ := h'
    rcases hn with rfl | hn | hn | hn | hn
    · exact h
    · exact ih0 q0 n hn
    · exact ih1 q1 n hn
    · exact ih2 q2 n hn
    · exact ih3 q3 n hn

/-- In a tree built from distinct pointers every query gets distinct candidates. -/
theorem retrieve_build_nodup (mem : List (Particle F)) (bounds : Rectangle F) (ks : List Nat)
    (q : Particle F) (h : ks.Nodup) : ((build mem bounds ks).retrieve [] q).Nodup :=
  retrieve_nodup _ q ((build_ok mem bounds ks).1.nodup_iff.mpr h)

/-- C13, as stated, fails: there is no such quadtree and query.  Over any ordered field, when
the inserted particles have pairwise distinct ids the candidate list of `retrieve` never holds a
pointer twice, for no query particle at all. -/
theorem C13_counterexample :
    ¬ ∃ (K : Type) (_ : LinearOrderedField K) (mem : List (Particle K)) (bounds : Rectangle K)
        (ks : List Nat) (q : Particle K),
      (ks.map fun k => (deref mem k).id).Nodup ∧
        ¬ ((build mem bounds ks).retrieve [] q).Nodup := by
  rintro ⟨K, _, mem, bounds, ks, q, hids, hdup⟩
  exact hdup (retrieve_build_nodup mem bounds ks q (List.Nodup.of_map _ hids))

/-- C13, amended. For every quadtree built by inserting particles with pairwise distinct ids
into an empty root, and every query particle, straddling or not, the candidate list of
`retrieve` contains no stored particle more than once. -/
theorem C13_retrieve_has_no_duplicates (mem : List (Particle F)) (bounds : Rectangle F)
    (ks : List Nat) (q : Particle F) (hids : (ks.map fun k => (deref mem k).id).Nodup) :
    ((build mem bounds ks).retrieve [] q).Nodup :=
  retrieve_build_nodup mem bounds ks q (List.Nodup.of_map _ hids)

/-- C13, amended, at a concrete input: the tree of `demo5`, which has split, and particle 1,
which straddles the vertical midline of the root. -/
theorem C13_witness :
    (([0, 1, 2, 3, 4] : List Nat).map fun k => (deref (demo5 ℚ) k).id).Nodup ∧
      getIndex window (deref (demo5 ℚ) 1) = -1 ∧
      ((build (demo5 ℚ) window [0, 1, 2, 3, 4]).retrieve [] (deref (demo5 ℚ) 1)).Nodup :=
  have hids : (([0, 1, 2, 3, 4] : List Nat).map fun k => (deref (demo5 ℚ) k).id).Nodup := by
    simp [deref, demo5]
  ⟨hids, (demo5_index ℚ).2.1,
    C13_retrieve_has_no_duplicates (demo5 ℚ) window [0, 1, 2, 3, 4] (deref (demo5 ℚ) 1) hids⟩

/-- C17. `insert` neither loses nor duplicates: the local lists of all nodes of the built tree
together hold exactly the inserted pointers, each as often as it was inserted, also across
splits and redistribution. -/
theorem C17_insert_keeps_the_multiset (mem : List (Particle F)) (bounds : Rectangle F)
    (ks : List Nat) :
    (((build mem bounds ks).subtrees.map Quadtree.particles).flatten).Perm ks := by
  rw [← all_eq_flatten]
  exact (build_ok mem bounds ks).1

/-- C18. Placement: at every node of the built tree that has children, every pointer in the
node's own list is sent to no quadrant by `getIndex` at that node, and every pointer stored
anywhere under child `i` is sent to `i`. -/
theorem C18_placement (mem : List (Particle F)) (bounds : Rectangle F) (ks : List Nat)
    (lv : Int) (ps : List Nat) (b : Rectangle F) (n0 n1 n2 n3 : Quadtree F)
    (hN : Quadtree.branch lv ps b n0 n1 n2 n3 ∈ (build mem bounds ks).subtrees) :
    (∀ k ∈ ps, getIndex b (deref mem k) = -1) ∧
      (∀ k ∈ n0.all, getIndex b (deref mem k) = 0) ∧
      (∀ k ∈ n1.all, getIndex b (deref mem k) = 1) ∧
      (∀ k ∈ n2.all, getIndex b (deref mem k) = 2) ∧
      (∀ k ∈ n3.all, getIndex b (deref mem k) = 3) := by
  have h := placed_subtrees mem _ (build_ok mem bounds ks).2.2.2.1 _ hN
  simp only [Placed] at h
  exact ⟨h.1, h.2.1, h.2.2.1, h.2.2.2.1, h.2.2.2.2.1⟩

/-- C18 at a concrete input: the root of the tree of `demo5`, which keeps the straddling
particle 1 and has sent the others to its children. -/
theorem C18_witness :
    Quadtree.branch 0 [1] window (.leaf 1 [4] (splitBounds window 0))
        (.leaf 1 [0, 2] (splitBounds window 1)) (.leaf 1 [] (splitBounds window 2))
        (.leaf 1 [3] (splitBounds window 3)) ∈
        (build (demo5 ℚ) window [0, 1, 2, 3, 4]).subtrees ∧
      (∀ k ∈ [1], getIndex window (deref (demo5 ℚ) k) = -1) ∧
      (∀ k ∈ (Quadtree.leaf 1 [4] (splitBounds (window : Rectangle ℚ) 0)).all,
        getIndex window (deref (demo5 ℚ) k) = 0) ∧
      (∀ k ∈ (Quadtree.leaf 1 [0, 2] (splitBounds (window : Rectangle ℚ) 1)).all,
        getIndex window (deref (demo5 ℚ) k) = 1) ∧
      (∀ k ∈ (Quadtree.leaf 1 [] (splitBounds (window : Rectangle ℚ) 2)).all,
        getIndex window (deref (demo5 ℚ) k) = 2) ∧
      (∀ k ∈ (Quadtree.leaf 1 [3] (splitBounds (window : Rectangle ℚ) 3)).all,
        getIndex window (deref (demo5 ℚ) k) = 3) :=
  have hN : Quadtree.branch 0 [1] window (.leaf 1 [4] (splitBounds window 0))
      (.leaf 1 [0, 2] (splitBounds window 1)) (.leaf 1 [] (splitBounds window 2))
      (.leaf 1 [3] (splitBounds window 3)) ∈
      (build (demo5 ℚ) window [0, 1, 2, 3, 4]).subtrees := by
    rw [demo5_build]
    simp [Quadtree.subtrees]
  ⟨hN, C18_placement (demo5 ℚ) window [0, 1, 2, 3, 4] 0 [1] window _ _ _ _ hN⟩

/-- C20. A collection of at most `MAX_PARTICLES` particles with ids 0..n-1 in collection order:
the built quadtree is the root alone, never split, holding the pointers in insertion order;
`retrieve` returns the whole collection in insertion order for every query; and
`checkCollisionsQuadtree` returns the count and the vector that `checkCollisionsBruteForce`
returns. -/
theorem C20_small_collections (sqrt : F → F) (particles : List (Particle F))
    (bounds : Rectangle F) (hn : particles.length ≤ MAX_PARTICLES)
    (hids : ∀ i < particles.length, (deref particles i).id = i) :
    build particles bounds (List.range particles.length) =
        .leaf 0 (List.range particles.length) bounds ∧
      (∀ q : Particle F,
        (build particles bounds (List.range particles.length)).retrieve [] q =
          List.range particles.length) ∧
      checkCollisionsQuadtree sqrt particles
          (build particles bounds (List.range particles.length)) =
        checkCollisionsBruteForce sqrt particles := by
  have hb := build_small particles bounds (List.range particles.length) (by simpa using hn)
  refine ⟨hb, fun q => ?_, quadtree_eq_brute_small sqrt particles bounds hn hids⟩
  rw [hb]
  simp [Quadtree.retrieve]

/-- C20 at a concrete input over the reals: the colliding pair of the resolution example. -/
theorem C20_witness :
    [pairA ℝ, pairB ℝ].length ≤ MAX_PARTICLES ∧
      (∀ i < [pairA ℝ, pairB ℝ].length, (deref [pairA ℝ, pairB ℝ] i).id = i) ∧
      build [pairA ℝ, pairB ℝ] window (List.range [pairA ℝ, pairB ℝ].length) =
        .leaf 0 (List.range [pairA ℝ, pairB ℝ].length) window ∧
      (∀ q : Particle ℝ,
        (build [pairA ℝ, pairB ℝ] window (List.range [pairA ℝ, pairB ℝ].length)).retrieve [] q =
          List.range [pairA ℝ, pairB ℝ].length) ∧
      checkCollisionsQuadtree Real.sqrt [pairA ℝ, pairB ℝ]
          (build [pairA ℝ, pairB ℝ] window (List.range [pairA ℝ, pairB ℝ].length)) =
        checkCollisionsBruteForce Real.sqrt [pairA ℝ, pairB ℝ] :=
  have hn : [pairA ℝ, pairB ℝ].length ≤ MAX_PARTICLES := by decide
  have hids : ∀ i < [pairA ℝ, pairB ℝ].length, (deref [pairA ℝ, pairB ℝ] i).id = i := by
    intro i hi
    simp only [List.length_cons, List.length_nil] at hi
    interval_cases i <;> rfl
  ⟨hn, hids, C20_small_collections Real.sqrt [pairA ℝ, pairB ℝ] window hn hids⟩

/-! ## Capacity: C16 -/

theorem insertChild_capped {ins : Quadtree F → Nat → Option (Quadtree F)}
    (hins : ∀ t k t1, ins t k = some t1 → Capped t → Capped t1)
    (index : Int) (k : Nat) (ns ns1 : Nodes F) (h : insertChild ins index k ns = some ns1)
    (hc : Capped ns.n0 ∧ Capped ns.n1 ∧ Capped ns.n2 ∧ Capped ns.n3) :
    Capped ns1.n0 ∧ Capped ns1.n1 ∧ Capped ns1.n2 ∧ Capped ns1.n3 := by
  unfold insertChild at h
  obtain ⟨c0, c1, c2, c3⟩ := hc
  split_ifs at h
  all_goals
    simp only [Option.map_eq_some'] at h
    obtain ⟨a, ha, rfl⟩ := h
    have ok := hins _ _ _ ha
  · exact ⟨ok c0, c1, c2, c3⟩
  · exact ⟨c0, ok c1, c2, c3⟩
  · exact ⟨c0, c1, ok c2, c3⟩
  · exact ⟨c0, c1, c2, ok c3⟩

theorem redistribute_capped {ins : Quadtree F → Nat → Option (Quadtree F)}
    (hins : ∀ t k t1, ins t k = some t1 → Capped t → Capped t1)
    (mem : List (Particle F)) (b : Rectangle F) (l : List Nat) :
    ∀ (kept : List Nat) (ns : Nodes F) (r : List Nat × Nodes F),
      redistribute ins mem b l kept ns = some r →
      Capped ns.n0 ∧ Capped ns.n1 ∧ Capped ns.n2 ∧ Capped ns.n3 →
      Capped r.2.n0 ∧ Capped r.2.n1 ∧ Capped r.2.n2 ∧ Capped r.2.n3 := by
  induction l with
  | nil =>
    intro kept ns r h hc
    simp only [redistribute, Option.some.injEq] at h
    subst h
    exact hc
  | cons k rest ih =>
    intro kept ns r h hc
    simp only [redistribute] at h
    split_ifs at h with hi
    · simp only [Option.bind_eq_some] at h
      obtain ⟨ns1, h1, h2⟩ := h
      exact ih kept ns1 r h2 (insertChild_capped hins _ k ns ns1 h1 hc)
    · exact ih _ ns r h hc

theorem afterPush_capped {ins : Quadtree F → Nat → Option (Quadtree F)}
    (hins : ∀ t k t1, ins t k = some t1 → Capped t → Capped t1)
    (mem : List (Particle F)) (lv : Int) (ps : List Nat) (b : Rectangle F)
    (ch : Option (Nodes F)) (t1 : Quadtree F) (h : afterPush ins mem lv ps b ch = some t1)
    (hc : ∀ ns, ch = some ns → Capped ns.n0 ∧ Capped ns.n1 ∧ Capped ns.n2 ∧ Capped ns.n3) :
    Capped t1 := by
  unfold afterPush at h
  split_ifs at h with hsplit
  · simp only [Option.map_eq_some'] at h
    obtain ⟨r, hr, rfl⟩ := h
    simp only [Capped]
    refine redistribute_capped hins mem b ps [] _ r hr ?_
    cases ch with
    | none => simp [Quadtree.split, Quadtree.new, Capped]
    | some ns => exact hc ns rfl
  · cases ch with
    | none =>
      simp only [Option.some.injEq] at h
      subst h
      simp only [Capped]
      intro hlv
      exact not_lt.mp (fun hlen => hsplit ⟨hlen, hlv⟩)
    | some ns =>
      simp only [Option.some.injEq] at h
      subst h
      exact hc ns rfl

theorem insertFuel_capped (mem : List (Particle F)) :
    ∀ (n : Nat) (t : Quadtree F) (k : Nat) (t1 : Quadtree F),
      insertFuel mem n t k = some t1 → Capped t → Capped t1 := by
  intro n
  induction n with
  | zero => intro t k t1 h; simp [insertFuel] at h
  | succ n ih =>
    intro t k t1 h hc
    cases t with
    | leaf lv ps b =>
      rw [insertFuel_leaf] at h
      exact afterPush_capped ih mem _ _ _ _ _ h (fun ns hns => by simp at hns)
    | branch lv ps b n0 n1 n2 n3 =>
      rw [insertFuel_branch] at h
      simp only [Capped] at hc
      split_ifs at h with hi
      · simp only [Option.map_eq_some'] at h
        obtain ⟨ns1, h1, rfl⟩ := h
        simp only [Capped]
        exact insertChild_capped ih _ k ⟨n0, n1, n2, n3⟩ ns1 h1 hc
      · refine afterPush_capped ih mem _ _ _ _ _ h (fun ns hns => ?_)
        simp only [Option.some.injEq] at hns
        subst hns
        exact hc

theorem build_capped (mem : List (Particle F)) (b : Rectangle F) (ks : List Nat) :
    Capped (build mem b ks) := by
  induction ks using List.reverseRecOn with
  | nil => simp [build, Quadtree.new, Capped]
  | append_singleton ks k ih =>
    have e : build mem b (ks ++ [k]) = (build mem b ks).insert mem k := by
      simp [build, List.foldl_append]
    rw [e]
    exact insertFuel_capped mem _ _ k _ (insertFuel_eq_insert mem _ k (le_refl _)) ih

theorem capped_subtrees (t : Quadtree F) :
    Capped t → ∀ n ∈ t.subtrees, n.hasChildren = false → n.level < MAX_LEVELS →
      n.particles.length ≤ MAX_PARTICLES := by
  induction t with
  | leaf lv ps b =>
    intro h n hn _ hlv
    simp only [Quadtree.subtrees, List.mem_singleton] at hn
    subst hn
    exact h hlv
  | branch lv ps b n0 n1 n2 n3 ih0 ih1 ih2 ih3 =>
    intro h n hn hch hlv
    simp only [Capped] at h
    simp only [Quadtree.subtrees, List.mem_cons, List.mem_append] at hn
    rcases hn with rfl | hn | hn | hn | hn
    · simp [Quadtree.hasChildren] at hch
    · exact ih0 h.1 n hn hch hlv
    · exact ih1 h.2.1 n hn hch hlv
    · exact ih2 h.2.2.1 n hn hch hlv
    · exact ih3 h.2.2.2 n hn hch hlv

/-- C16. Capacity: in a quadtree built by inserting any list of particle pointers into an empty
level-0 root, every node without children whose level is below `MAX_LEVELS` = 8 holds at most
`MAX_PARTICLES` = 4 pointers in its local list. -/
theorem C16_capacity (mem : List (Particle F)) (bounds : Rectangle F) (ks : List Nat)
    (n : Quadtree F) (hn : n ∈ (build mem bounds ks).subtrees) (hleaf : n.hasChildren = false)
    (hlv : n.level < MAX_LEVELS) : n.particles.length ≤ MAX_PARTICLES :=
  capped_subtrees _ (build_capped mem bounds ks) n hn hleaf hlv

/-- C16 at a concrete input: the child of the root of the tree of `demo5` that holds the
particles 0 and 2. -/
theorem C16_witness :
    Quadtree.leaf 1 [0, 2] (splitBounds window 1) ∈
        (build (demo5 ℚ) window [0, 1, 2, 3, 4]).subtrees ∧
      (Quadtree.leaf 1 [0, 2] (splitBounds (window : Rectangle ℚ) 1)).hasChildren = false ∧
      (Quadtree.leaf 1 [0, 2] (splitBounds (window : Rectangle ℚ) 1)).level < MAX_LEVELS ∧
      (Quadtree.leaf 1 [0, 2] (splitBounds (window : Rectangle ℚ) 1)).particles.length ≤
        MAX_PARTICLES :=
  have hn : Quadtree.leaf 1 [0, 2] (splitBounds window 1) ∈
      (build (demo5 ℚ) window [0, 1, 2, 3, 4]).subtrees := by
    rw [demo5_build]
    simp [Quadtree.subtrees]
  ⟨hn, rfl, by decide,
    C16_capacity (demo5 ℚ) window [0, 1, 2, 3, 4] _ hn rfl (by decide)⟩

/-! ## Resolving a pair twice: C14 -/

theorem resolve_two_swapped (A B : Particle F) (d m : F) :
    resolve [A, B] 1 0 d m =
      [{ A with
          position :=
            ⟨A.position.x - (B.position.x - A.position.x) / d * ((m - d) / 2),
              A.position.y - (B.position.y - A.position.y) / d * ((m - d) / 2)⟩
          velocity := B.velocity },
       { B with
          position :=
            ⟨B.position.x + (B.position.x - A.position.x) / d * ((m - d) / 2),
              B.position.y + (B.position.y - A.position.y) / d * ((m - d) / 2)⟩
          velocity := A.velocity }] := rfl

theorem collides_two_swapped (sqrt : F → F) (A B : Particle F) :
    collides sqrt [A, B] 1 0 =
      (decide (distance sqrt B A < B.radius + A.radius) && decide (distance sqrt B A > 0)) :=
  rfl

/-- After the narrow phase on the pair (0, 1) of a two-particle vector the pair no longer
passes the test: either it did not pass before and nothing moved, or it was resolved and the
centres are now `minDist` apart. -/
theorem pairStep_two_apart {sqrt : F → F} (hs : IsSqrt sqrt) (A B : Particle F) (n : Int) :
    ∃ (m : Int) (A1 B1 : Particle F), pairStep sqrt 0 1 (n, [A, B]) = (m, [A1, B1]) ∧
      A1.id = A.id ∧ B1.id = B.id ∧ collides sqrt [A1, B1] 0 1 = false := by
  by_cases hc : collides sqrt [A, B] 0 1 = true
  · have hc' := hc
    rw [collides_two] at hc'
    simp only [Bool.and_eq_true, decide_eq_true_eq, gt_iff_lt] at hc'
    obtain ⟨hlt, hpos⟩ := hc'
    refine ⟨n + 1,
      { A with
        position :=
          ⟨A.position.x + (A.position.x - B.position.x) / distance sqrt A B *
              ((A.radius + B.radius - distance sqrt A B) / 2),
            A.position.y + (A.position.y - B.position.y) / distance sqrt A B *
              ((A.radius + B.radius - distance sqrt A B) / 2)⟩
        velocity := B.velocity },
      { B with
        position :=
          ⟨B.position.x - (A.position.x - B.position.x) / distance sqrt A B *
              ((A.radius + B.radius - distance sqrt A B) / 2),
            B.position.y - (A.position.y - B.position.y) / distance sqrt A B *
              ((A.radius + B.radius - distance sqrt A B) / 2)⟩
        velocity := A.velocity }, ?_, ?_, ?_, ?_⟩
    · rw [pairStep_eq]
      simp only [hc, ite_true, resolve_two, deref, List.getD_cons_zero, List.getD_cons_succ]
    · rfl
    · rfl
    · rw [collides_two, distance_after_resolve hs A B hpos hlt _ _ rfl rfl]
      simp
  · refine ⟨n, A, B, ?_, rfl, rfl, by simpa using hc⟩
    exact pairStep_of_not_collides sqrt 0 1 _ (by simpa using hc)

theorem pairStep_two_swapped_apart {sqrt : F → F} (hs : IsSqrt sqrt) (A B : Particle F)
    (n : Int) :
    ∃ (m : Int) (A1 B1 : Particle F), pairStep sqrt 1 0 (n, [A, B]) = (m, [A1, B1]) ∧
      A1.id = A.id ∧ B1.id = B.id ∧ collides sqrt [A1, B1] 1 0 = false := by
  by_cases hc : collides sqrt [A, B] 1 0 = true
  · have hc' := hc
    rw [collides_two_swapped] at hc'
    simp only [Bool.and_eq_true, decide_eq_true_eq, gt_iff_lt] at hc'
    obtain ⟨hlt, hpos⟩ := hc'
    refine ⟨n + 1,
      { A with
        position :=
          ⟨A.position.x - (B.position.x - A.position.x) / distance sqrt B A *
              ((B.radius + A.radius - distance sqrt B A) / 2),
            A.position.y - (B.position.y - A.position.y) / distance sqrt B A *
              ((B.radius + A.radius - distance sqrt B A) / 2)⟩
        velocity := B.velocity },
      { B with
        position :=
          ⟨B.position.x + (B.position.x - A.position.x) / distance sqrt B A *
              ((B.radius + A.radius - distance sqrt B A) / 2),
            B.position.y + (B.position.y - A.position.y) / distance sqrt B A *
              ((B.radius + A.radius - distance sqrt B A) / 2)⟩
        velocity := A.velocity }, ?_, ?_, ?_, ?_⟩
    · rw [pairStep_eq]
      simp only [hc, ite_true, resolve_two_swapped, deref, List.getD_cons_zero,
        List.getD_cons_succ]
    · rfl
    · rfl
    · rw [collides_two_swapped, distance_after_resolve hs B A hpos hlt _ _ rfl rfl]
      simp
  · refine ⟨n, A, B, ?_, rfl, rfl, by simpa using hc⟩
    exact pairStep_of_not_collides sqrt 1 0 _ (by simpa using hc)

/-- On two particles the indexed pass tests the pair once, in the direction of the larger id,
or not at all when the ids are equal. -/
theorem quadtree_two_cases (sqrt : F → F) (A B : Particle F) (bounds : Rectangle F) :
    checkCollisionsQuadtree sqrt [A, B] (build [A, B] bounds [0, 1]) =
      if A.id < B.id then pairStep sqrt 0 1 (0, [A, B])
      else if B.id < A.id then pairStep sqrt 1 0 (0, [A, B])
      else (0, [A, B]) := by
  rw [quadtree_two]
  simp only [List.foldl_cons, List.foldl_nil]
  rw [candidateStep_skip sqrt 0 0 _ (le_refl _)]
  have hid : ∀ (st : PassState F), (st.2.map fun a => a.id) = [A.id, B.id] →
      (deref st.2 0).id = A.id ∧ (deref st.2 1).id = B.id := by
    intro st h
    rw [deref_id, deref_id, h]
    exact ⟨rfl, rfl⟩
  split_ifs with h1 h2
  · rw [candidateStep_test sqrt 0 1 (0, [A, B]) h1]
    have hi := hid (pairStep sqrt 0 1 (0, [A, B])) (pairStep_ids sqrt 0 1 _)
    rw [candidateStep_skip sqrt 1 0 _ (by rw [hi.1, hi.2]; exact le_of_lt h1),
      candidateStep_skip sqrt 1 1 _ (le_refl _)]
  · rw [candidateStep_skip sqrt 0 1 (0, [A, B]) (le_of_lt h2),
      candidateStep_test sqrt 1 0 (0, [A, B]) h2, candidateStep_skip sqrt 1 1 _ (le_refl _)]
  · rw [candidateStep_skip sqrt 0 1 (0, [A, B]) (not_lt.mp h1),
      candidateStep_skip sqrt 1 0 (0, [A, B]) (not_lt.mp h2),
      candidateStep_skip sqrt 1 1 _ (le_refl _)]

/-- C14. Pair resolution is idempotent: on a two-particle collection a second
`checkCollisionsBruteForce` right after the first counts no collision and changes nothing,
because after the first the pair no longer passes the test `dist < minDist && dist > 0`; the
same holds for a second `checkCollisionsQuadtree` on the quadtree of the collection, which a
rebuild from the moved particles leaves the same. -/
theorem C14_resolution_is_idempotent {sqrt : F → F} (hs : IsSqrt sqrt) (A B : Particle F)
    (bounds : Rectangle F) :
    checkCollisionsBruteForce sqrt (checkCollisionsBruteForce sqrt [A, B]).2 =
        (0, (checkCollisionsBruteForce sqrt [A, B]).2) ∧
      collides sqrt (checkCollisionsBruteForce sqrt [A, B]).2 0 1 = false ∧
      checkCollisionsQuadtree sqrt
          (checkCollisionsQuadtree sqrt [A, B] (build [A, B] bounds [0, 1])).2
          (build [A, B] bounds [0, 1]) =
        (0, (checkCollisionsQuadtree sqrt [A, B] (build [A, B] bounds [0, 1])).2) ∧
      build (checkCollisionsQuadtree sqrt [A, B] (build [A, B] bounds [0, 1])).2 bounds [0, 1] =
        build [A, B] bounds [0, 1] := by
  have hbuild : ∀ mem : List (Particle F), build mem bounds [0, 1] = .leaf 0 [0, 1] bounds :=
    fun mem => build_small mem bounds [0, 1] (by decide)
  refine ⟨?_, ?_, ?_, by rw [hbuild, hbuild]⟩
  · obtain ⟨m, A1, B1, e, _, _, hap⟩ := pairStep_two_apart hs A B 0
    rw [brute_two, e]
    simp only
    rw [brute_two]
    exact pairStep_of_not_collides sqrt 0 1 _ hap
  · obtain ⟨m, A1, B1, e, _, _, hap⟩ := pairStep_two_apart hs A B 0
    rw [brute_two, e]
    exact hap
  · rw [quadtree_two_cases]
    split_ifs with h1 h2
    · obtain ⟨m, A1, B1, e, ia, ib, hap⟩ := pairStep_two_apart hs A B 0
      rw [e]
      simp only
      rw [hbuild [A, B], ← hbuild [A1, B1], quadtree_two_cases, if_pos (by rw [ia, ib]; exact h1)]
      exact pairStep_of_not_collides sqrt 0 1 _ hap
    · obtain ⟨m, A1, B1, e, ia, ib, hap⟩ := pairStep_two_swapped_apart hs A B 0
      rw [e]
      simp only
      rw [hbuild [A, B], ← hbuild [A1, B1], quadtree_two_cases,
        if_neg (by rw [ia, ib]; exact h1), if_pos (by rw [ia, ib]; exact h2)]
      exact pairStep_of_not_collides sqrt 1 0 _ hap
    · simp only
      rw [quadtree_two_cases, if_neg h1, if_neg h2]

/-- C14 at a concrete input over the reals: the colliding pair of the resolution example. -/
theorem C14_witness :
    IsSqrt Real.sqrt ∧
      checkCollisionsBruteForce Real.sqrt
          (checkCollisionsBruteForce Real.sqrt [pairA ℝ, pairB ℝ]).2 =
        (0, (checkCollisionsBruteForce Real.sqrt [pairA ℝ, pairB ℝ]).2) :=
  ⟨isSqrt_real, (C14_resolution_is_idempotent isSqrt_real (pairA ℝ) (pairB ℝ) window).1⟩

/-! ## Sums of positions and velocities: C15 -/

theorem deref_set_ne (mem : List (Particle F)) (i k : Nat) (p : Particle F) (h : i ≠ k) :
    deref (mem.set i p) k = deref mem k := by
  simp [deref, h]

theorem deref_set_eq (mem : List (Particle F)) (i : Nat) (p : Particle F)
    (h : i < mem.length) : deref (mem.set i p) i = p := by
  simp [deref, List.getElem?_set, h]

theorem sum_map_set (f : Particle F → F) (mem : List (Particle F)) (i : Nat) (p : Particle F)
    (h : i < mem.length) :
    ((mem.set i p).map f).sum = (mem.map f).sum - f (deref mem i) + f p := by
  induction mem generalizing i with
  | nil => simp at h
  | cons a l ih =>
    cases i with
    | zero =>
      simp only [List.set_cons_zero, List.map_cons, List.sum_cons, deref, List.getD_cons_zero]
      ring
    | succ i =>
      simp only [List.length_cons, Nat.add_lt_add_iff_right] at h
      simp only [List.set_cons_succ, List.map_cons, List.sum_cons, deref, List.getD_cons_succ]
      have := ih i h
      simp only [deref] at this
      rw [this]
      ring

/-- The four writes of the resolution on two different valid pointers amount to replacing the
two particles. -/
theorem resolve_eq_sets (mem : List (Particle F)) (i c : Nat) (d m : F) (hi : i < mem.length)
    (hc : c < mem.length) (hne : i ≠ c) :
    resolve mem i c d m =
      (mem.set i { deref mem i with
        position :=
          ⟨(deref mem i).position.x +
              ((deref mem i).position.x - (deref mem c).position.x) / d * ((m - d) / 2),
            (deref mem i).position.y +
              ((deref mem i).position.y - (deref mem c).position.y) / d * ((m - d) / 2)⟩
        velocity := (deref mem c).velocity }).set c { deref mem c with
        position :=
          ⟨(deref mem c).position.x -
              ((deref mem i).position.x - (deref mem c).position.x) / d * ((m - d) / 2),
            (deref mem c).position.y -
              ((deref mem i).position.y - (deref mem c).position.y) / d * ((m - d) / 2)⟩
        velocity := (deref mem i).velocity } := by
  unfold resolve
  simp only
  have hc1 : ∀ p, c < (mem.set i p).length := fun p => by simpa using hc
  have hi2 : ∀ p q, i < ((mem.set i p).set c q).length := fun p q => by simpa using hi
  simp only [deref_set_ne _ i c _ hne, deref_set_ne _ c i _ (Ne.symm hne), deref_set_eq _ i _ hi,
    deref_set_eq _ c _ (hc1 _), deref_set_eq _ i _ (hi2 _ _)]
  rw [List.set_comm _ _ _ hne, List.set_set, List.set_comm _ _ _ (Ne.symm hne), List.set_set]

/-- What a pass keeps of the vector it started from: the length and the two sums. -/
theorem resolve_sums (mem : List (Particle F)) (i c : Nat) (d m : F) (hi : i < mem.length)
    (hc : c < mem.length) (hne : i ≠ c) :
    (resolve mem i c d m).length = mem.length ∧
      sumPositions (resolve mem i c d m) = sumPositions mem ∧
      sumVelocities (resolve mem i c d m) = sumVelocities mem := by
  rw [resolve_eq_sets mem i c d m hi hc hne]
  have hc1 : ∀ p, c < (mem.set i p).length := fun p => by simpa using hc
  refine ⟨by simp, ?_, ?_⟩
  · simp only [sumPositions, Vector2f.mk.injEq]
    constructor <;>
    · rw [sum_map_set _ _ c _ (hc1 _), sum_map_set _ _ i _ hi, deref_set_ne _ i c _ hne]
      ring
  · simp only [sumVelocities, Vector2f.mk.injEq]
    constructor <;>
    · rw [sum_map_set _ _ c _ (hc1 _), sum_map_set _ _ i _ hi, deref_set_ne _ i c _ hne]
      ring

theorem pairStep_sums (sqrt : F → F) (i c : Nat) (st : PassState F) (hi : i < st.2.length)
    (hc : c < st.2.length) (hne : i ≠ c) :
    (pairStep sqrt i c st).2.length = st.2.length ∧
      sumPositions (pairStep sqrt i c st).2 = sumPositions st.2 ∧
      sumVelocities (pairStep sqrt i c st).2 = sumVelocities st.2 := by
  rw [pairStep_eq]
  split_ifs
  · exact resolve_sums st.2 i c _ _ hi hc hne
  · exact ⟨rfl, rfl, rfl⟩

theorem pairs_fold_sums (sqrt : F → F) (i : Nat) (js : List Nat) :
    ∀ st : PassState F, i < st.2.length → (∀ j ∈ js, j < st.2.length ∧ i ≠ j) →
      (js.foldl (fun st j => pairStep sqrt i j st) st).2.length = st.2.length ∧
      sumPositions (js.foldl (fun st j => pairStep sqrt i j st) st).2 = sumPositions st.2 ∧
      sumVelocities (js.foldl (fun st j => pairStep sqrt i j st) st).2 = sumVelocities st.2 := by
  induction js with
  | nil => intro st _ _; exact ⟨rfl, rfl, rfl⟩
  | cons j js ih =>
    intro st hi hjs
    obtain ⟨hj, hne⟩ := hjs j (by simp)
    obtain ⟨e1, e2, e3⟩ := pairStep_sums sqrt i j st hi hj hne
    simp only [List.foldl_cons]
    obtain ⟨f1, f2, f3⟩ := ih (pairStep sqrt i j st) (by rw [e1]; exact hi)
      (fun x hx => by rw [e1]; exact hjs x (List.mem_cons_of_mem _ hx))
    exact ⟨f1.trans e1, f2.trans e2, f3.trans e3⟩

theorem candidates_fold_sums (sqrt : F → F) (i : Nat) (cs : List Nat) :
    ∀ st : PassState F, i < st.2.length → (∀ c ∈ cs, c < st.2.length) →
      (cs.foldl (candidateStep sqrt i) st).2.length = st.2.length ∧
      sumPositions (cs.foldl (candidateStep sqrt i) st).2 = sumPositions st.2 ∧
      sumVelocities (cs.foldl (candidateStep sqrt i) st).2 = sumVelocities st.2 := by
  induction cs with
  | nil => intro st _ _; exact ⟨rfl, rfl, rfl⟩
  | cons c cs ih =>
    intro st hi hcs
    have hstep : (candidateStep sqrt i st c).2.length = st.2.length ∧
        sumPositions (candidateStep sqrt i st c).2 = sumPositions st.2 ∧
        sumVelocities (candidateStep sqrt i st c).2 = sumVelocities st.2 := by
      unfold candidateStep
      split_ifs with hid
      · exact ⟨rfl, rfl, rfl⟩
      · refine pairStep_sums sqrt i c st hi (hcs c (by simp)) ?_
        rintro rfl
        exact hid (le_refl _)
    obtain ⟨e1, e2, e3⟩ := hstep
    simp only [List.foldl_cons]
    obtain ⟨f1, f2, f3⟩ := ih (candidateStep sqrt i st c) (by rw [e1]; exact hi)
      (fun x hx => by rw [e1]; exact hcs x (List.mem_cons_of_mem _ hx))
    exact ⟨f1.trans e1, f2.trans e2, f3.trans e3⟩

theorem brute_sums (sqrt : F → F) (particles : List (Particle F)) :
    sumPositions (checkCollisionsBruteForce sqrt particles).2 = sumPositions particles ∧
      sumVelocities (checkCollisionsBruteForce sqrt particles).2 = sumVelocities particles := by
  unfold checkCollisionsBruteForce
  have key : ∀ (is : List Nat) (st : PassState F), st.2.length = particles.length →
      (∀ i ∈ is, i < particles.length) →
      (is.foldl (fun st i =>
        (List.range' (i + 1) (particles.length - (i + 1))).foldl
          (fun st j => pairStep sqrt i j st) st) st).2.length = st.2.length ∧
      sumPositions (is.foldl (fun st i =>
        (List.range' (i + 1) (particles.length - (i + 1))).foldl
          (fun st j => pairStep sqrt i j st) st) st).2 = sumPositions st.2 ∧
      sumVelocities (is.foldl (fun st i =>
        (List.range' (i + 1) (particles.length - (i + 1))).foldl
          (fun st j => pairStep sqrt i j st) st) st).2 = sumVelocities st.2 := by
    intro is
    induction is with
    | nil => intro st _ _; exact ⟨rfl, rfl, rfl⟩
    | cons i is ih =>
      intro st hlen his
      have hi : i < particles.length := his i (by simp)
      obtain ⟨e1, e2, e3⟩ := pairs_fold_sums sqrt i
        (List.range' (i + 1) (particles.length - (i + 1))) st (by rw [hlen]; exact hi)
        (fun j hj => by
          rw [List.mem_range'_1] at hj
          rw [hlen]
          exact ⟨by omega, by omega⟩)
      simp only [List.foldl_cons]
      obtain ⟨f1, f2, f3⟩ := ih _ (e1.trans hlen) (fun x hx => his x (List.mem_cons_of_mem _ hx))
      exact ⟨f1.trans e1, f2.trans e2, f3.trans e3⟩
  obtain ⟨_, h2, h3⟩ := key (List.range particles.length) (0, particles) rfl
    (fun i hi => List.mem_range.mp hi)
  exact ⟨h2, h3⟩

theorem quadtree_sums (sqrt : F → F) (particles : List (Particle F)) (t : Quadtree F)
    (ht : ∀ x ∈ t.all, x < particles.length) :
    sumPositions (checkCollisionsQuadtree sqrt particles t).2 = sumPositions particles ∧
      sumVelocities (checkCollisionsQuadtree sqrt particles t).2 = sumVelocities particles := by
  unfold checkCollisionsQuadtree
  have key : ∀ (is : List Nat) (st : PassState F), st.2.length = particles.length →
      (∀ i ∈ is, i < particles.length) →
      (is.foldl (fun st i =>
        (t.retrieve [] (deref st.2 i)).foldl (candidateStep sqrt i) st) st).2.length =
          st.2.length ∧
      sumPositions (is.foldl (fun st i =>
        (t.retrieve [] (deref st.2 i)).foldl (candidateStep sqrt i) st) st).2 =
          sumPositions st.2 ∧
      sumVelocities (is.foldl (fun st i =>
        (t.retrieve [] (deref st.2 i)).foldl (candidateStep sqrt i) st) st).2 =
          sumVelocities st.2 := by
    intro is
    induction is with
    | nil => intro st _ _; exact ⟨rfl, rfl, rfl⟩
    | cons i is ih =>
      intro st hlen his
      have hi : i < particles.length := his i (by simp)
      obtain ⟨e1, e2, e3⟩ := candidates_fold_sums sqrt i (t.retrieve [] (deref st.2 i)) st
        (by rw [hlen]; exact hi)
        (fun c hc => by rw [hlen]; exact ht c (retrieve_mem_all t _ c hc))
      simp only [List.foldl_cons]
      obtain ⟨f1, f2, f3⟩ := ih _ (e1.trans hlen) (fun x hx => his x (List.mem_cons_of_mem _ hx))
      exact ⟨f1.trans e1, f2.trans e2, f3.trans e3⟩
  obtain ⟨_, h2, h3⟩ := key (List.range particles.length) (0, particles) rfl
    (fun i hi => List.mem_range.mp hi)
  exact ⟨h2, h3⟩

/-- C15. The positional correction is equal and opposite and the velocities are exchanged, so
one pass of `checkCollisionsBruteForce`, and likewise one pass of `checkCollisionsQuadtree` on
the quadtree built from the collection, leaves the sum of all positions and the sum of all
velocities as they were, whatever collisions it resolves, and whatever `dist` was computed. -/
theorem C15_sums_are_preserved (sqrt : F → F) (particles : List (Particle F))
    (bounds : Rectangle F) :
    sumPositions (checkCollisionsBruteForce sqrt particles).2 = sumPositions particles ∧
      sumVelocities (checkCollisionsBruteForce sqrt particles).2 = sumVelocities particles ∧
      sumPositions (checkCollisionsQuadtree sqrt particles
          (build particles bounds (List.range particles.length))).2 = sumPositions particles ∧
      sumVelocities (checkCollisionsQuadtree sqrt particles
          (build particles bounds (List.range particles.length))).2 =
        sumVelocities particles := by
  have hq := quadtree_sums sqrt particles (build particles bounds (List.range particles.length))
    (fun x hx => List.mem_range.mp ((build_ok particles bounds _).1.subset hx))
  exact ⟨(brute_sums sqrt particles).1, (brute_sums sqrt particles).2, hq.1, hq.2⟩

end Theorems

end FPStrukdat
